import Mathlib

/-! # zkregistry: path codec, service cache and reconciliation loop

A shallow embedding of `utils.go` and `registry.go`.

Modelling conventions.

* Go strings are Lean strings.  The byte `/` occurs in UTF-8 text only as the
  character `/`, so indexing the first or last byte and splitting on `"/"`
  agree with the same operations on characters.
* A Go slice of strings is a `List String`; the nil slice and the empty slice
  are both `[]` (they have the same length and the same elements).  The section
  on slices with their backing arrays refines this for one question: what a
  caller reads from a slice that `Lookup` returned to it earlier.
* A Go map is a `Finmap`: finite, keys unique, equality extensional.  The inner
  maps of `services` are reached only through their outer key, so mutating an
  inner map in place is modelled by writing the mutated map back.
* `uint` and `int` are 64 bits wide.  A `uint` is a natural number below
  `2^64`; `int` arithmetic wraps to the range `[-2^63, 2^63)`.
* A function that can hit a run-time panic returns an `Option`, `none` being
  the panic.
* The mutex, the logger and the ZooKeeper connection carry no cache state and
  are left out; every method is one atomic transition of the registry.
* `json.Marshal` of package encoding/json is modelled for the type of the
  cache: objects with their keys sorted as strings, arrays in stored order,
  strings with Go's escapes.  A stored slice is never nil (`Add` appends,
  `DeleteEndpoint` re-slices), so an empty one is written `[]`.
-/

namespace zkregistry

/-! ## Machine integers -/

/-- Two's-complement wrap of an integer to the 64-bit `int` range. -/
def wrapInt (x : Int) : Int :=
  (x + 2 ^ 63) % 2 ^ 64 - 2 ^ 63

/-- The conversion `int(offset)` of a `uint`: the same 64 bits, read as signed. -/
def intOfUint (offset : Nat) : Int :=
  wrapInt (offset : Int)

/-- The conversion `uint(n)` of an `int`: the same 64 bits, read as unsigned. -/
def uintOfInt (n : Int) : Nat :=
  (n % 2 ^ 64).toNat

/-- Addition on `int`, wrapping on overflow. -/
def addInt (a b : Int) : Int :=
  wrapInt (a + b)

/-- The index expression `parts[i]` for an `int` index: `none` is the
index-out-of-range panic. -/
def index (parts : List String) (i : Int) : Option String :=
  if 0 ≤ i then parts[i.toNat]? else none

/-! ## utils.go -/

/-- Go's `strings.Split(s, sep)` for a one-character separator, on the
characters of `s`: the pieces between consecutive separators, empty pieces
included; the empty string yields one empty piece. -/
def splitChars (sep : Char) : List Char → List (List Char)
  | [] => [[]]
  | c :: cs =>
    if c = sep then [] :: splitChars sep cs
    else
      match splitChars sep cs with
      | [] => [[c]]
      | p :: ps => (c :: p) :: ps

/-- Go's `strings.Split(s, sep)` for a one-character separator. -/
def Split (s : String) (sep : Char) : List String :=
  (splitChars sep s.data).map String.mk

/-- The function `sanitizePath` of utils.go: trims one leading and then one
trailing slash. -/
def sanitizePath (zkPath : String) : String :=
  let zkPath :=
    if 0 < zkPath.length ∧ zkPath.data.head? = some '/' then String.mk (zkPath.data.drop 1)
    else zkPath
  let zkPath :=
    if 0 < zkPath.length ∧ zkPath.data.getLast? = some '/' then String.mk zkPath.data.dropLast
    else zkPath
  zkPath

/-- Following the spec's words for `sanitize` ("strips exactly one leading `/`
and one trailing `/` if present"): the path without its first character if
that is a slash, and then without the last character of what remains if that
is a slash. -/
def stripOne (p : String) : String :=
  let q := if p.data.head? = some '/' then p.data.tail else p.data
  String.mk (if q.getLast? = some '/' then q.dropLast else q)

/-- A node name of the watched tree: a non-empty string without a slash. -/
def isNodeName (s : String) : Prop :=
  s ≠ "" ∧ '/' ∉ s.data

/-- Error values of the package. -/
inductive Error where
  /-- The value `ErrNilConn`. -/
  | ErrNilConn
  /-- The value `ErrServiceNotFound`. -/
  | ErrServiceNotFound
  /-- The value `fmt.Errorf("invalid path received: %q", zkPath)`. -/
  | invalidPath (zkPath : String)
  deriving DecidableEq, Repr

set_option linter.dupNamespace false in
/-- The method `Error()` of an error value: its message.  The parameter `quote`
stands for the `%q` verb of package fmt (`strconv.Quote`). -/
def Error.Error (quote : String → String) : Error → String
  | .ErrNilConn => "can't create registry with <nil> zk connection"
  | .ErrServiceNotFound => "service not found"
  | .invalidPath zkPath => "invalid path received: " ++ quote zkPath

/-- The four results of `parseConfigPath`. -/
structure ParseResult where
  /-- First result. -/
  serviceName : String
  /-- Second result. -/
  serviceVersion : String
  /-- Third result. -/
  endpoint : String
  /-- Fourth result, `none` for the nil error. -/
  err : Option Error
  deriving DecidableEq, Repr

/-- The function `parseConfigPath` of utils.go.  `offset` is the `uint`
argument; `none` is an index-out-of-range panic. -/
def parseConfigPath (zkPath : String) (offset : Nat) : Option ParseResult :=
  let off := intOfUint offset
  let zkPath := sanitizePath zkPath
  let parts := Split zkPath '/'
  let len : Int := (parts.length : Int)
  if len < off ∨ len > addInt off 3 then
    some ⟨"", "", "", some (Error.invalidPath zkPath)⟩
  else if len = off then
    some ⟨"", "", "", none⟩
  else if len = addInt off 1 then
    (index parts off).bind fun p0 =>
    some ⟨p0, "", "", none⟩
  else if len = addInt off 2 then
    (index parts off).bind fun p0 =>
    (index parts (addInt off 1)).bind fun p1 =>
    some ⟨p0, p1, "", none⟩
  else
    (index parts off).bind fun p0 =>
    (index parts (addInt off 1)).bind fun p1 =>
    (index parts (addInt off 2)).bind fun p2 =>
    some ⟨p0, p1, p2, none⟩

/-- The variable `ParseConfigPath` of utils.go, bound to `parseConfigPath`. -/
def ParseConfigPath : String → Nat → Option ParseResult :=
  parseConfigPath

/-! ## registry.go -/

/-- The type `map[string][]string`: the versions of one service. -/
abbrev Versions := Finmap (fun _ : String => List String)

/-- The type `map[string]map[string][]string` of the field `services`. -/
abbrev Services := Finmap (fun _ : String => Versions)

/-- The struct `ZKRegistry`, reduced to the fields that carry registry state. -/
structure ZKRegistry where
  /-- Field `offset uint`: offset of the original path. -/
  offset : Nat
  /-- Field `services`: the registry state. -/
  services : Services

/-- The composite literal of `New`: the offset is the number of parts of the
sanitized root path, the cache starts empty.  The connection check, the tree
bootstrap and the start of the watcher are outside the model. -/
def New (zkPath : String) : ZKRegistry where
  offset := uintOfInt ((Split (sanitizePath zkPath) '/').length : Int)
  services := ∅

/-- Modelled from the spec: the notification kind of package zkwatcher, which
is not among the sources (`kind: Create|Delete|Update`). -/
inductive EventType where
  /-- A node was created. -/
  | Create
  /-- A node was deleted. -/
  | Delete
  /-- A node was updated. -/
  | Update
  deriving DecidableEq, Repr

/-- Modelled from the spec: the notification of package zkwatcher, which is not
among the sources (`{path: string, kind, error: optional}`); the fields are
named as the watcher loop reads them. -/
structure Event where
  /-- Field `Path`. -/
  Path : String
  /-- Field `Type` (a reserved word here, hence `Kind`). -/
  Kind : EventType
  /-- Field `Error`, `none` for nil; only its presence is observed. -/
  Error : Option String
  deriving DecidableEq, Repr

/-- The two states of the watcher loop. -/
inductive LoopState where
  /-- The loop waits for its next item. -/
  | Running
  /-- The loop has returned. -/
  | Stopped
  deriving DecidableEq, Repr

/-- The `select` case that fires in one iteration of the watcher loop. -/
inductive Select where
  /-- Case `<-reg.stopChan`. -/
  | stop
  /-- Case `<-ticker.C`. -/
  | tick
  /-- Case `event := <-watcher.C`. -/
  | event (event : Event)
  deriving DecidableEq, Repr

/-- The statement `copy(s[i:], s[i+1:])`, as the new contents of `s`: the
elements from `i+1` on move down by one, the last one stays. -/
def copyDown (s : List String) (i : Nat) : List String :=
  s.take i ++ s.drop (i + 1) ++ s.drop (s.length - 1)

/-- The three statements that remove index `i` from `service[version]`:
`copy(s[i:], s[i+1:])`, `s[len(s)-1] = ""`, `s = s[:len(s)-1]`. -/
def removeAt (s : List String) (i : Nat) : List String :=
  let s := copyDown s i
  let s := s.set (s.length - 1) ""
  s.take (s.length - 1)

/-- One pass of `for i, svc := range s` up to its first `svc == endpoint`:
the index `i` at which the body jumps to `begin`, or `none` when the pass runs
to its end.  The second argument is the index of the head of the list. -/
def rangeFind (endpoint : String) : List String → Nat → Option Nat
  | [], _ => none
  | svc :: rest, i => if svc = endpoint then some i else rangeFind endpoint rest (i + 1)

/-- Following the spec's words for `deleteEndpoint` ("a single filter/retain
pass"): keep, in their order, the elements different from `endpoint`. -/
def retainPass (endpoint : String) (l : List String) : List String :=
  l.filter fun svc => svc ≠ endpoint

set_option linter.unusedVariables false in
/-- The label `begin` and the loop under it in `DeleteEndpoint`: each pass
ranges over `service[version]` (nil when the key is absent); at the first
element equal to `endpoint` it removes that index, stores the shorter slice and
starts over; a pass without a match leaves the loop. -/
def deleteLoop (service : Versions) (version endpoint : String) : Versions :=
  match hfind : rangeFind endpoint ((service.lookup version).getD []) 0 with
  | none => service
  | some i =>
    deleteLoop (service.insert version (removeAt ((service.lookup version).getD []) i))
      version endpoint
termination_by ((service.lookup version).getD []).length
decreasing_by
  have hlt : ∀ (l : List String) (i0 j : Nat),
      rangeFind endpoint l i0 = some j → j < i0 + l.length := by
    intro l
    induction l with
    | nil => intro i0 j hj; simp [rangeFind] at hj
    | cons a l ih =>
      intro i0 j hj
      simp only [rangeFind] at hj
      split at hj
      · simp only [Option.some.injEq] at hj
        simp only [List.length_cons]
        omega
      · have := ih (i0 + 1) j hj
        simp only [List.length_cons]
        omega
  have hi := hlt _ 0 i hfind
  simp only [Finmap.lookup_insert, Option.getD_some, removeAt, copyDown, List.length_take,
    List.length_set, List.length_append, List.length_drop]
  omega

/-! ## encoding/json, for the type of the cache -/

/-- The hexadecimal digit of a number below 16, in lower case as encoding/json
writes it. -/
def hexDigit (n : Nat) : Char :=
  "0123456789abcdef".data.getD n '0'

/-- The double quote character. -/
def dquote : Char := Char.ofNat 34

/-- The backslash character. -/
def bslash : Char := Char.ofNat 92

/-- The encoding of one character inside a JSON string by Go's encoding/json
with its default HTML escaping: the quote, the backslash, newline, carriage
return and tab have two-character escapes; other control characters, `<`, `>`,
`&` and the line separators U+2028 and U+2029 are written as a `u` escape with
four hexadecimal digits; every other character stands for itself. -/
def jsonEscape (c : Char) : List Char :=
  if c = dquote then [bslash, dquote]
  else if c = bslash then [bslash, bslash]
  else if c = Char.ofNat 10 then [bslash, 'n']
  else if c = Char.ofNat 13 then [bslash, 'r']
  else if c = Char.ofNat 9 then [bslash, 't']
  else if c.toNat < 32 ∨ c = '<' ∨ c = '>' ∨ c = '&' then
    [bslash, 'u', '0', '0', hexDigit (c.toNat / 16), hexDigit (c.toNat % 16)]
  else if c.toNat = 8232 ∨ c.toNat = 8233 then
    [bslash, 'u', '2', '0', '2', hexDigit (c.toNat % 16)]
  else [c]

/-- The JSON encoding of a Go string. -/
def jsonString (s : String) : String :=
  String.mk ([dquote] ++ s.data.flatMap jsonEscape ++ [dquote])

/-- The JSON encoding of a non-nil `[]string`: the encoded elements in order,
separated by commas, between brackets. -/
def jsonArray (l : List String) : String :=
  "[" ++ ",".intercalate (l.map jsonString) ++ "]"

/-- The JSON encoding of an object from its members, each a key with its
encoded value: `key:value` pairs separated by commas, between braces. -/
def jsonObject (members : List (String × String)) : String :=
  "\x7b" ++ ",".intercalate (members.map fun m => jsonString m.1 ++ ":" ++ m.2) ++ "\x7d"

/-- The keys of a map in the order in which encoding/json writes them: sorted
as strings. -/
def sortedKeys {β : Type} (m : Finmap (fun _ : String => β)) : List String :=
  m.keys.sort (fun a b => a ≤ b)

/-- The call `json.Marshal` on a `map[string][]string`. -/
def marshalVersions (service : Versions) : String :=
  jsonObject ((sortedKeys service).map fun version =>
    (version, jsonArray ((service.lookup version).getD [])))

/-- The call `json.Marshal(reg.services)`; it returns no error for a map of
maps of string slices. -/
def marshalServices (services : Services) : String :=
  jsonObject ((sortedKeys services).map fun name =>
    (name, marshalVersions ((services.lookup name).getD ∅)))

namespace ZKRegistry

/-- The expression `reg.services[name][version]` with its comma-ok result:
indexing a missing service yields the nil map, which has no version. -/
def entry (reg : ZKRegistry) (name version : String) : Option (List String) :=
  ((reg.services.lookup name).getD ∅).lookup version

/-- The method `Lookup`: the endpoint list for the given service name and
version, with the error result (`none` for nil). -/
def Lookup (reg : ZKRegistry) (name version : String) : List String × Option Error :=
  match reg.entry name version with
  | none => ([], some Error.ErrServiceNotFound)
  | some targets => (targets, none)

/-- The method `Add`: creates the service map when it is missing, then appends
the endpoint to `service[version]`. -/
def Add (reg : ZKRegistry) (name version endpoint : String) : ZKRegistry :=
  let service : Versions :=
    match reg.services.lookup name with
    | some service => service
    | none => ∅
  let service := service.insert version ((service.lookup version).getD [] ++ [endpoint])
  { reg with services := reg.services.insert name service }

/-- The method `DeleteEndpoint`: returns at once when the service is missing,
otherwise runs the removal loop on the service map. -/
def DeleteEndpoint (reg : ZKRegistry) (name version endpoint : String) : ZKRegistry :=
  match reg.services.lookup name with
  | none => reg
  | some service =>
    { reg with services := reg.services.insert name (deleteLoop service version endpoint) }

/-- The method `DeleteVersion`: returns at once when the service is missing,
otherwise deletes the version key from the service map. -/
def DeleteVersion (reg : ZKRegistry) (name version : String) : ZKRegistry :=
  match reg.services.lookup name with
  | none => reg
  | some service => { reg with services := reg.services.insert name (service.erase version) }

/-- The method `DeleteService`: deletes the service key. -/
def DeleteService (reg : ZKRegistry) (name : String) : ZKRegistry :=
  { reg with services := reg.services.erase name }

/-- The body of `case event := <-watcher.C` in the method `watcher`: decode the
path, drop the event on a decode error, on a watch error or on an empty name,
then dispatch on the event type.  `none` is a panic raised while decoding. -/
def watcherEvent (reg : ZKRegistry) (event : Event) : Option ZKRegistry :=
  (ParseConfigPath event.Path reg.offset).bind fun r =>
  if r.err ≠ none then some reg
  else if event.Error ≠ none then some reg
  else if r.serviceName = "" then some reg
  else
    match event.Kind with
    | .Create =>
      if r.serviceVersion ≠ "" ∧ r.endpoint ≠ "" then
        some (reg.Add r.serviceName r.serviceVersion r.endpoint)
      else some reg
    | .Delete =>
      if r.serviceVersion = "" then some (reg.DeleteService r.serviceName)
      else if r.endpoint = "" then some (reg.DeleteVersion r.serviceName r.serviceVersion)
      else some (reg.DeleteEndpoint r.serviceName r.serviceVersion r.endpoint)
    | .Update => some reg

/-- One iteration of the `for`/`select` loop of the method `watcher`: the stop
signal ends the loop, a tick does nothing, an event is processed. -/
def watcherIter (reg : ZKRegistry) : Select → Option (ZKRegistry × LoopState)
  | .stop => some (reg, LoopState.Stopped)
  | .tick => some (reg, LoopState.Running)
  | .event event => (reg.watcherEvent event).map fun reg => (reg, LoopState.Running)

/-- The method `watcher` run on the sequence of `select` cases that fire: the
loop processes them one by one until the stop signal; it returns the registry
it has reached when the sequence ends or the loop stops, `none` on a panic. -/
def watcher (reg : ZKRegistry) : List Select → Option ZKRegistry
  | [] => some reg
  | s :: rest =>
    match reg.watcherIter s with
    | none => none
    | some (reg2, LoopState.Stopped) => some reg2
    | some (reg2, LoopState.Running) => watcher reg2 rest

/-- Every key and every endpoint of the cache is a node name: each service key,
and for each stored pair `services[name][version]` the version key and each
of the endpoints of the stored slice. -/
def namesValid (reg : ZKRegistry) : Prop :=
  (∀ name, name ∈ reg.services → isNodeName name) ∧
    ∀ name version l, reg.entry name version = some l →
      isNodeName version ∧ ∀ e, e ∈ l → isNodeName e

/-- The method `String`: the JSON representation of the registered services.
The fallback to `fmt.Sprintln` is taken only when `json.Marshal` fails, which
it does not for this type. -/
protected def String (reg : ZKRegistry) : String :=
  marshalServices reg.services

end ZKRegistry

/-! ## Slices with their backing arrays

The cache again, for what a caller that holds a slice returned by `Lookup`
reads from it later: a slice is a pointer to a backing array with a length,
`Lookup` returns the stored slice itself, and `DeleteEndpoint` writes into the
backing array of the stored slice. -/

/-- A value of type `[]string` as Go represents it: the address of its backing
array and its length.  Every slice of the cache starts at index 0 of its
array, and its capacity is the length of that array. -/
structure Slice where
  /-- The address of the backing array. -/
  ptr : Nat
  /-- The length of the slice. -/
  len : Nat
  deriving DecidableEq, Repr

/-- The elements read through a slice from the memory `heap`, the list of the
backing arrays by address. -/
def Slice.elems (heap : List (List String)) (s : Slice) : List String :=
  (heap.getD s.ptr []).take s.len

/-- The registry state with the backing arrays of its slices: the memory and
the field `services`, whose slices point into it. -/
structure SharedRegistry where
  /-- The backing arrays, by address. -/
  heap : List (List String)
  /-- Field `services`. -/
  services : Finmap (fun _ : String => Finmap (fun _ : String => Slice))

/-- The loop of `DeleteEndpoint` on the memory: each pass ranges over the
elements of `service[version]`; at the first element equal to `endpoint` it
runs `copy` and the assignment of `""` inside the backing array, stores the
slice shortened by one over the same array, and starts over.  `fuel` bounds
the number of passes; `none` is running out of it. -/
def deleteLoopShared :
    Nat → List (List String) → Finmap (fun _ : String => Slice) → String → String →
      Option (List (List String) × Finmap (fun _ : String => Slice))
  | 0, _, _, _, _ => none
  | fuel + 1, heap, service, version, endpoint =>
    match service.lookup version with
    | none => some (heap, service)
    | some s =>
      match rangeFind endpoint (s.elems heap) 0 with
      | none => some (heap, service)
      | some i =>
        let seen := copyDown (s.elems heap) i
        let seen := seen.set (seen.length - 1) ""
        let heap := heap.set s.ptr (seen ++ (heap.getD s.ptr []).drop s.len)
        deleteLoopShared fuel heap (service.insert version ⟨s.ptr, s.len - 1⟩) version endpoint

namespace SharedRegistry

/-- The method `Lookup` on the memory: it returns the stored slice itself (the
nil slice is `none`), not a copy of its elements. -/
def Lookup (reg : SharedRegistry) (name version : String) : Option Slice × Option Error :=
  match ((reg.services.lookup name).getD ∅).lookup version with
  | none => (none, some Error.ErrServiceNotFound)
  | some targets => (some targets, none)

/-- The method `DeleteEndpoint` on the memory, with the bound `fuel` on the
passes of its loop. -/
def DeleteEndpoint (fuel : Nat) (reg : SharedRegistry) (name version endpoint : String) :
    Option SharedRegistry :=
  match reg.services.lookup name with
  | none => some reg
  | some service =>
    (deleteLoopShared fuel reg.heap service version endpoint).map fun r =>
      { heap := r.1, services := reg.services.insert name r.2 }

end SharedRegistry

/-! ## Machine integers: helper lemmas -/

/-- Wrapping leaves the values of the `int` range alone. -/
theorem wrapInt_of_range (x : Int) (hlo : -2 ^ 63 ≤ x) (hhi : x < 2 ^ 63) : wrapInt x = x := by
  unfold wrapInt
  omega

/-- A `uint` below `2^63` converts to the same number. -/
theorem intOfUint_of_lt (offset : Nat) (h : offset < 2 ^ 63) :
    intOfUint offset = (offset : Int) := by
  unfold intOfUint
  apply wrapInt_of_range <;> omega

/-- Adding a small constant to a non-negative `int` does not wrap while the sum
stays below `2^63`. -/
theorem addInt_small (a : Nat) (k : Int) (hk : 0 ≤ k) (h : (a : Int) + k < 2 ^ 63) :
    addInt (a : Int) k = (a : Int) + k := by
  unfold addInt
  rw [wrapInt_of_range] <;> omega

/-- Indexing with a non-negative `int` is list indexing. -/
theorem index_natCast (parts : List String) (i : Nat) : index parts (i : Int) = parts[i]? := by
  simp [index]

/-- Indexing with a sum of non-negative `int`s is list indexing. -/
theorem index_natCast_add (parts : List String) (i : Nat) (k : Int) (hk : 0 ≤ k) :
    index parts ((i : Int) + k) = parts[i + k.toNat]? := by
  have h0 : (0 : Int) ≤ (i : Int) + k := by omega
  have h1 : ((i : Int) + k).toNat = i + k.toNat := by omega
  simp [index, h0, h1]

/-- An index below the length selects an element. -/
theorem exists_getElem?_of_lt (parts : List String) (i : Nat) (h : i < parts.length) :
    ∃ p, parts[i]? = some p :=
  ⟨parts[i], List.getElem?_eq_getElem h⟩

/-! ## parseConfigPath -/

/-- Normal form of `parseConfigPath` when the offset converts exactly, the path
has at least `offset` parts and `len(parts) + 3` does not overflow. -/
theorem parseConfigPath_of_le (zkPath : String) (offset : Nat) (hoff : offset < 2 ^ 63)
    (hfit : (Split (sanitizePath zkPath) '/').length + 3 < 2 ^ 63)
    (hle : offset ≤ (Split (sanitizePath zkPath) '/').length) :
    parseConfigPath zkPath offset =
      if offset + 3 < (Split (sanitizePath zkPath) '/').length then
        some ⟨"", "", "", some (Error.invalidPath (sanitizePath zkPath))⟩
      else if (Split (sanitizePath zkPath) '/').length = offset then
        some ⟨"", "", "", none⟩
      else if (Split (sanitizePath zkPath) '/').length = offset + 1 then
        ((Split (sanitizePath zkPath) '/')[offset]?).bind fun p0 => some ⟨p0, "", "", none⟩
      else if (Split (sanitizePath zkPath) '/').length = offset + 2 then
        ((Split (sanitizePath zkPath) '/')[offset]?).bind fun p0 =>
        ((Split (sanitizePath zkPath) '/')[offset + 1]?).bind fun p1 => some ⟨p0, p1, "", none⟩
      else
        ((Split (sanitizePath zkPath) '/')[offset]?).bind fun p0 =>
        ((Split (sanitizePath zkPath) '/')[offset + 1]?).bind fun p1 =>
        ((Split (sanitizePath zkPath) '/')[offset + 2]?).bind fun p2 =>
          some ⟨p0, p1, p2, none⟩ := by
  unfold parseConfigPath
  simp only []
  rw [intOfUint_of_lt offset hoff, addInt_small offset 3 (by omega) (by omega),
    addInt_small offset 2 (by omega) (by omega), addInt_small offset 1 (by omega) (by omega),
    index_natCast, index_natCast_add _ _ 1 (by omega), index_natCast_add _ _ 2 (by omega)]
  generalize (Split (sanitizePath zkPath) '/') = parts at *
  have e1 : (1 : Int).toNat = 1 := rfl
  have e2 : (2 : Int).toNat = 2 := rfl
  rw [e1, e2]
  by_cases h3 : offset + 3 < parts.length
  · rw [if_pos (Or.inr (by omega)), if_pos h3]
  · rw [if_neg (by omega), if_neg h3]
    by_cases h0 : parts.length = offset
    · rw [if_pos (by omega), if_pos h0]
    · rw [if_neg (by omega), if_neg h0]
      by_cases h1 : parts.length = offset + 1
      · rw [if_pos (by omega), if_pos h1]
      · rw [if_neg (by omega), if_neg h1]
        by_cases h2 : parts.length = offset + 2
        · rw [if_pos (by omega), if_pos h2]
        · rw [if_neg (by omega), if_neg h2]

/-- With fewer parts than `offset`, `parseConfigPath` reports the invalid path. -/
theorem parseConfigPath_of_lt (zkPath : String) (offset : Nat) (hoff : offset < 2 ^ 63)
    (hlt : (Split (sanitizePath zkPath) '/').length < offset) :
    parseConfigPath zkPath offset =
      some ⟨"", "", "", some (Error.invalidPath (sanitizePath zkPath))⟩ := by
  unfold parseConfigPath
  simp only []
  rw [intOfUint_of_lt offset hoff, if_pos (Or.inl (by omega))]

/-- Inside the range `offset <= n <= offset+3`, `parseConfigPath` returns
without panic and with a nil error. -/
theorem parseConfigPath_in_range (zkPath : String) (offset : Nat)
    (hoff : offset < 2 ^ 63)
    (hfit : (Split (sanitizePath zkPath) '/').length + 3 < 2 ^ 63)
    (hlo : offset ≤ (Split (sanitizePath zkPath) '/').length)
    (hhi : (Split (sanitizePath zkPath) '/').length ≤ offset + 3) :
    ∃ r, parseConfigPath zkPath offset = some r ∧ r.err = none := by
  have hnf := parseConfigPath_of_le zkPath offset hoff hfit hlo
  generalize (Split (sanitizePath zkPath) '/') = parts at *
  obtain ⟨p0, hp0⟩ | h0 : (∃ p, parts[offset]? = some p) ∨ parts.length = offset := by
    by_cases h : offset < parts.length
    · exact Or.inl (exists_getElem?_of_lt parts offset h)
    · exact Or.inr (by omega)
  · rw [if_neg (by omega)] at hnf
    have hne : parts.length ≠ offset := by
      intro h
      have := List.getElem?_eq_none (l := parts) (n := offset) (by omega)
      rw [this] at hp0
      exact Option.noConfusion hp0
    rw [if_neg hne, hp0] at hnf
    by_cases h1 : parts.length = offset + 1
    · rw [if_pos h1] at hnf
      exact ⟨_, hnf, rfl⟩
    rw [if_neg h1] at hnf
    obtain ⟨p1, hp1⟩ := exists_getElem?_of_lt parts (offset + 1) (by omega)
    rw [hp1] at hnf
    by_cases h2 : parts.length = offset + 2
    · rw [if_pos h2] at hnf
      exact ⟨_, hnf, rfl⟩
    rw [if_neg h2] at hnf
    obtain ⟨p2, hp2⟩ := exists_getElem?_of_lt parts (offset + 2) (by omega)
    rw [hp2] at hnf
    exact ⟨_, hnf, rfl⟩
  · rw [if_neg (by omega), if_pos h0] at hnf
    exact ⟨_, hnf, rfl⟩

/-- C1: for a path and an offset that converts exactly to a non-negative int
(`hoff`), with `parts` the sanitized path split on "/" and `n = len(parts)`
(`hfit`: `n + 3` is representable as an int, as it is for every slice of strings
that fits in memory): if `offset <= n <= offset+3` then `parseConfigPath`
returns, without panic and with a nil error, the triple of its depth: all empty
when `n = offset`; `(parts[offset], "", "")` when `n = offset+1`;
`(parts[offset], parts[offset+1], "")` when `n = offset+2`;
`(parts[offset], parts[offset+1], parts[offset+2])` when `n = offset+3`. -/
theorem parseConfigPath_depth_triple (zkPath : String) (offset : Nat)
    (hoff : offset < 2 ^ 63)
    (hfit : (Split (sanitizePath zkPath) '/').length + 3 < 2 ^ 63)
    (hlo : offset ≤ (Split (sanitizePath zkPath) '/').length)
    (hhi : (Split (sanitizePath zkPath) '/').length ≤ offset + 3) :
    ∃ r, parseConfigPath zkPath offset = some r ∧ r.err = none ∧
      ((Split (sanitizePath zkPath) '/').length = offset → r = ⟨"", "", "", none⟩) ∧
      ((Split (sanitizePath zkPath) '/').length = offset + 1 →
        ∃ p0, (Split (sanitizePath zkPath) '/')[offset]? = some p0 ∧ r = ⟨p0, "", "", none⟩) ∧
      ((Split (sanitizePath zkPath) '/').length = offset + 2 →
        ∃ p0 p1, (Split (sanitizePath zkPath) '/')[offset]? = some p0 ∧
          (Split (sanitizePath zkPath) '/')[offset + 1]? = some p1 ∧ r = ⟨p0, p1, "", none⟩) ∧
      ((Split (sanitizePath zkPath) '/').length = offset + 3 →
        ∃ p0 p1 p2, (Split (sanitizePath zkPath) '/')[offset]? = some p0 ∧
          (Split (sanitizePath zkPath) '/')[offset + 1]? = some p1 ∧
          (Split (sanitizePath zkPath) '/')[offset + 2]? = some p2 ∧
          r = ⟨p0, p1, p2, none⟩) := by
  have hnf := parseConfigPath_of_le zkPath offset hoff hfit hlo
  generalize (Split (sanitizePath zkPath) '/') = parts at *
  rw [hnf, if_neg (by omega)]
  by_cases h0 : parts.length = offset
  · rw [if_pos h0]
    exact ⟨_, rfl, rfl, fun _ => rfl, fun h => by omega, fun h => by omega, fun h => by omega⟩
  rw [if_neg h0]
  by_cases h1 : parts.length = offset + 1
  · rw [if_pos h1]
    obtain ⟨p0, hp0⟩ := exists_getElem?_of_lt parts offset (by omega)
    rw [hp0]
    exact ⟨_, rfl, rfl, fun h => by omega, fun _ => ⟨p0, rfl, rfl⟩, fun h => by omega,
      fun h => by omega⟩
  rw [if_neg h1]
  by_cases h2 : parts.length = offset + 2
  · rw [if_pos h2]
    obtain ⟨p0, hp0⟩ := exists_getElem?_of_lt parts offset (by omega)
    obtain ⟨p1, hp1⟩ := exists_getElem?_of_lt parts (offset + 1) (by omega)
    rw [hp0, hp1]
    exact ⟨_, rfl, rfl, fun h => by omega, fun h => by omega, fun _ => ⟨p0, p1, rfl, rfl, rfl⟩,
      fun h => by omega⟩
  rw [if_neg h2]
  obtain ⟨p0, hp0⟩ := exists_getElem?_of_lt parts offset (by omega)
  obtain ⟨p1, hp1⟩ := exists_getElem?_of_lt parts (offset + 1) (by omega)
  obtain ⟨p2, hp2⟩ := exists_getElem?_of_lt parts (offset + 2) (by omega)
  rw [hp0, hp1, hp2]
  exact ⟨_, rfl, rfl, fun h => by omega, fun h => by omega, fun h => by omega,
    fun _ => ⟨p0, p1, p2, rfl, rfl, rfl, rfl⟩⟩

/-- Witness of C1 on the test row `/test/name/version/addr:0` with offset 1. -/
theorem parseConfigPath_depth_triple_witness :
    (1 < 2 ^ 63 ∧ (Split (sanitizePath "/test/name/version/addr:0") '/').length + 3 < 2 ^ 63 ∧
      1 ≤ (Split (sanitizePath "/test/name/version/addr:0") '/').length ∧
      (Split (sanitizePath "/test/name/version/addr:0") '/').length ≤ 1 + 3) ∧
    parseConfigPath "/test/name/version/addr:0" 1 = some ⟨"name", "version", "addr:0", none⟩ := by
  refine ⟨⟨by decide, by decide, by decide, by decide⟩, ?_⟩
  obtain ⟨r, hr, -, -, -, -, h3⟩ :=
    parseConfigPath_depth_triple "/test/name/version/addr:0" 1 (by decide) (by decide)
      (by decide) (by decide)
  obtain ⟨p0, p1, p2, e0, e1, e2, rfl⟩ := h3 (by decide)
  have e0k : (Split (sanitizePath "/test/name/version/addr:0") '/')[1]? = some "name" := by
    decide
  have e1k : (Split (sanitizePath "/test/name/version/addr:0") '/')[1 + 1]? = some "version" := by
    decide
  have e2k : (Split (sanitizePath "/test/name/version/addr:0") '/')[1 + 2]? = some "addr:0" := by
    decide
  rw [e0k] at e0
  rw [e1k] at e1
  rw [e2k] at e2
  rw [hr, ← Option.some.inj e0, ← Option.some.inj e1, ← Option.some.inj e2]

/-- C2: for a path and an offset that converts exactly to a non-negative int
(`hoff`), with `n` the number of "/"-separated parts of the sanitized path
(`hfit`: `n + 3` is representable as an int): `parseConfigPath` returns, without
panic, an error exactly when `n < offset` or `n > offset+3`; then the three
strings are empty and the message is `invalid path received: ` followed by the
quoted sanitized path. -/
theorem parseConfigPath_error_iff (zkPath : String) (offset : Nat)
    (hoff : offset < 2 ^ 63)
    (hfit : (Split (sanitizePath zkPath) '/').length + 3 < 2 ^ 63) :
    ∃ r, parseConfigPath zkPath offset = some r ∧
      (r.err ≠ none ↔
        (Split (sanitizePath zkPath) '/').length < offset ∨
          offset + 3 < (Split (sanitizePath zkPath) '/').length) ∧
      (r.err ≠ none →
        r = ⟨"", "", "", some (Error.invalidPath (sanitizePath zkPath))⟩ ∧
        ∀ e, r.err = some e → ∀ quote : String → String,
          e.Error quote = "invalid path received: " ++ quote (sanitizePath zkPath)) := by
  by_cases hlt : (Split (sanitizePath zkPath) '/').length < offset
  · refine ⟨_, parseConfigPath_of_lt zkPath offset hoff hlt, ?_, ?_⟩
    · simp [hlt]
    · intro _
      refine ⟨rfl, ?_⟩
      intro e he quote
      simp only [Option.some.injEq] at he
      subst he
      rfl
  · have hle : offset ≤ (Split (sanitizePath zkPath) '/').length := by omega
    obtain hhi | hhi := Nat.lt_or_ge (offset + 3) (Split (sanitizePath zkPath) '/').length
    · have hnf := parseConfigPath_of_le zkPath offset hoff hfit hle
      rw [if_pos hhi] at hnf
      refine ⟨_, hnf, ?_, ?_⟩
      · simp [hhi]
      · intro _
        refine ⟨rfl, ?_⟩
        intro e he quote
        simp only [Option.some.injEq] at he
        subst he
        rfl
    · obtain ⟨r, hr, herr⟩ := parseConfigPath_in_range zkPath offset hoff hfit hle hhi
      refine ⟨r, hr, ?_, ?_⟩
      · constructor
        · intro h; exact absurd herr h
        · intro h; omega
      · intro h; exact absurd herr h

/-- Witness of C2 on the test row `/name/version/addr/extra/extra` with offset
0: the message carries the sanitized path, without the leading slash. -/
theorem parseConfigPath_error_iff_witness :
    (0 < 2 ^ 63 ∧
      (Split (sanitizePath "/name/version/addr/extra/extra") '/').length + 3 < 2 ^ 63) ∧
    ∃ r, parseConfigPath "/name/version/addr/extra/extra" 0 = some r ∧
      (r.err ≠ none ↔
        (Split "name/version/addr/extra/extra" '/').length < 0 ∨
          0 + 3 < (Split "name/version/addr/extra/extra" '/').length) ∧
      (r.err ≠ none →
        r = ⟨"", "", "", some (Error.invalidPath "name/version/addr/extra/extra")⟩ ∧
        ∀ e, r.err = some e → ∀ quote : String → String,
          e.Error quote = "invalid path received: " ++ quote "name/version/addr/extra/extra") := by
  have hs : sanitizePath "/name/version/addr/extra/extra" = "name/version/addr/extra/extra" := by
    decide
  have h := parseConfigPath_error_iff "/name/version/addr/extra/extra" 0 (by decide) (by decide)
  rw [hs] at h
  exact ⟨⟨by decide, by decide⟩, h⟩


/-! ## Finite maps: helper lemmas -/

/-- Storing the value a key already has changes nothing. -/
theorem insert_lookup_self {β : Type} (m : Finmap (fun _ : String => β)) (k : String) (b : β)
    (h : m.lookup k = some b) : m.insert k b = m := by
  apply Finmap.ext_lookup
  intro x
  by_cases hx : x = k
  · subst hx; rw [Finmap.lookup_insert, h]
  · rw [Finmap.lookup_insert_of_ne _ hx]

/-- Deleting a key that is not there changes nothing. -/
theorem erase_of_lookup_none {β : Type} (m : Finmap (fun _ : String => β)) (k : String)
    (h : m.lookup k = none) : m.erase k = m := by
  apply Finmap.ext_lookup
  intro x
  by_cases hx : x = k
  · subst hx; rw [Finmap.lookup_erase, h]
  · rw [Finmap.lookup_erase_ne hx]

/-! ## The removal loop -/

/-- For an index inside the slice, the three removal statements erase that
index. -/
theorem removeAt_eq_eraseIdx (s : List String) (i : Nat) (h : i < s.length) :
    removeAt s i = s.eraseIdx i := by
  have hlen : (copyDown s i).length = s.length := by
    simp only [copyDown, List.length_append, List.length_take, List.length_drop]
    omega
  have hpre : (s.take i ++ s.drop (i + 1)).length = s.length - 1 := by
    simp only [List.length_append, List.length_take, List.length_drop]
    omega
  simp only [removeAt, List.length_set, hlen]
  rw [List.set_take, List.set_eq_of_length_le (by rw [List.length_take]; omega), copyDown,
    List.take_left' hpre, List.eraseIdx_eq_take_drop_succ]

/-- A pass that runs to its end saw no element equal to `endpoint`. -/
theorem rangeFind_eq_none (endpoint : String) (l : List String) (i0 : Nat) :
    rangeFind endpoint l i0 = none → endpoint ∉ l := by
  induction l generalizing i0 with
  | nil => intro _; simp
  | cons a l ih =>
    intro h
    simp only [rangeFind] at h
    split at h
    · exact Option.noConfusion h
    · rename_i hne
      simp only [List.mem_cons, not_or]
      exact ⟨fun he => hne he.symm, ih (i0 + 1) h⟩

/-- A pass that jumps to `begin` does so at an index holding `endpoint`. -/
theorem rangeFind_eq_some (endpoint : String) (l : List String) (i0 j : Nat) :
    rangeFind endpoint l i0 = some j → ∃ k, j = i0 + k ∧ l[k]? = some endpoint := by
  induction l generalizing i0 with
  | nil => intro h; simp [rangeFind] at h
  | cons a l ih =>
    intro h
    simp only [rangeFind] at h
    split at h
    · rename_i heq
      simp only [Option.some.injEq] at h
      exact ⟨0, by omega, by simp [heq]⟩
    · obtain ⟨k, hk, hget⟩ := ih (i0 + 1) h
      exact ⟨k + 1, by omega, by simpa using hget⟩

/-- Erasing one occurrence of `endpoint` does not change what a retain pass
keeps. -/
theorem retainPass_eraseIdx (endpoint : String) (l : List String) (k : Nat)
    (h : l[k]? = some endpoint) : retainPass endpoint (l.eraseIdx k) = retainPass endpoint l := by
  induction l generalizing k with
  | nil => simp at h
  | cons a l ih =>
    cases k with
    | zero =>
      simp only [List.getElem?_cons_zero, Option.some.injEq] at h
      subst h
      simp [retainPass]
    | succ k =>
      simp only [List.getElem?_cons_succ] at h
      have := ih k h
      simp only [retainPass, List.eraseIdx_cons_succ, List.filter_cons] at this ⊢
      rw [this]

/-- A retain pass over a slice without `endpoint` keeps everything. -/
theorem retainPass_of_not_mem (endpoint : String) (l : List String) (h : endpoint ∉ l) :
    retainPass endpoint l = l := by
  rw [retainPass, List.filter_eq_self]
  intro a ha
  simp only [ne_eq, decide_not, Bool.not_eq_eq_eq_not, Bool.not_true, decide_eq_false_iff_not]
  intro hae
  exact h (hae ▸ ha)


/-- The scan-and-restart loop computes a single retain pass on the stored
slice, and leaves a service map without the version as it is. -/
theorem deleteLoop_eq (service : Versions) (version endpoint : String) :
    deleteLoop service version endpoint =
      match service.lookup version with
      | none => service
      | some l => service.insert version (retainPass endpoint l) := by
  generalize hn : ((service.lookup version).getD []).length = n
  induction n generalizing service with
  | zero =>
    rw [deleteLoop]
    have hnil : (service.lookup version).getD [] = [] := List.length_eq_zero.mp hn
    split
    · cases hl : service.lookup version with
      | none => rfl
      | some l =>
        rw [hl] at hnil
        simp only [Option.getD_some] at hnil
        subst hnil
        exact (insert_lookup_self service version [] hl).symm
    · rename_i i hfind
      rw [hnil] at hfind
      simp [rangeFind] at hfind
  | succ n ih =>
    rw [deleteLoop]
    cases hl : service.lookup version with
    | none =>
      rw [hl] at hn
      simp at hn
    | some l =>
      simp only [hl, Option.getD_some] at hn ⊢
      split
      · rename_i hfind
        have hmem := rangeFind_eq_none endpoint l 0 hfind
        rw [retainPass_of_not_mem endpoint l hmem]
        exact (insert_lookup_self service version l hl).symm
      · rename_i i hfind
        obtain ⟨k, hk, hget⟩ := rangeFind_eq_some endpoint l 0 i hfind
        have hik : i = k := by omega
        subst hik
        have hlt : i < l.length := by
          by_contra hge
          rw [List.getElem?_eq_none (by omega)] at hget
          exact Option.noConfusion hget
        rw [removeAt_eq_eraseIdx l i hlt]
        rw [ih (service.insert version (l.eraseIdx i))
          (by rw [Finmap.lookup_insert, Option.getD_some, List.length_eraseIdx, if_pos hlt]; omega)]
        simp only [Finmap.lookup_insert]
        rw [Finmap.insert_insert, retainPass_eraseIdx endpoint l i hget]


/-! ## The service cache -/

namespace ZKRegistry

/-- The entry read back after `Add`: the stored slice, nil when the pair was
absent, with the endpoint appended. -/
theorem entry_Add_self (reg : ZKRegistry) (name version endpoint : String) :
    (reg.Add name version endpoint).entry name version =
      some ((reg.entry name version).getD [] ++ [endpoint]) := by
  unfold Add entry
  simp only [Finmap.lookup_insert, Option.getD_some]
  cases reg.services.lookup name with
  | none => simp only [Option.getD_none]
  | some service => simp only [Option.getD_some]

/-- The entry read back after `DeleteEndpoint`: a retain pass over the stored
slice, and still no entry when there was none. -/
theorem entry_DeleteEndpoint_self (reg : ZKRegistry) (name version endpoint : String) :
    (reg.DeleteEndpoint name version endpoint).entry name version =
      (reg.entry name version).map (retainPass endpoint) := by
  unfold DeleteEndpoint entry
  cases hs : reg.services.lookup name with
  | none => simp [hs]
  | some service =>
    simp only [Finmap.lookup_insert, Option.getD_some, deleteLoop_eq]
    cases hv : service.lookup version with
    | none => simp [hv]
    | some l => simp [Finmap.lookup_insert]

/-- A `DeleteEndpoint` that finds nothing to remove leaves the registry as it
was. -/
theorem DeleteEndpoint_of_not_mem (reg : ZKRegistry) (name version endpoint : String)
    (h : ∀ l, reg.entry name version = some l → endpoint ∉ l) :
    reg.DeleteEndpoint name version endpoint = reg := by
  unfold DeleteEndpoint
  cases hs : reg.services.lookup name with
  | none => rfl
  | some service =>
    have hloop : deleteLoop service version endpoint = service := by
      rw [deleteLoop_eq]
      cases hv : service.lookup version with
      | none => rfl
      | some l =>
        have hmem : endpoint ∉ l := h l (by simp [entry, hs, hv])
        simp only [retainPass_of_not_mem endpoint l hmem]
        exact insert_lookup_self service version l hv
    simp only [hloop, insert_lookup_self reg.services name service hs]

/-- C3: for every cache state and all strings name, version, endpoint: after
`Add(name, version, endpoint)`, `Lookup(name, version)` succeeds and returns the
sequence stored for the pair before the call (the empty one if the pair was
absent) with endpoint appended at the end, whether or not endpoint already
occurs in it; on the empty cache it returns `[endpoint]`. -/
theorem Lookup_Add (reg : ZKRegistry) (name version endpoint : String) :
    (reg.Add name version endpoint).Lookup name version =
        ((reg.entry name version).getD [] ++ [endpoint], none) ∧
      ∀ offset : Nat,
        ((ZKRegistry.mk offset ∅).Add name version endpoint).Lookup name version =
          ([endpoint], none) := by
  have hgen : ∀ r : ZKRegistry, (r.Add name version endpoint).Lookup name version =
      ((r.entry name version).getD [] ++ [endpoint], none) := by
    intro r
    unfold Lookup
    rw [entry_Add_self]
  refine ⟨hgen reg, ?_⟩
  intro offset
  rw [hgen]
  simp [entry, Finmap.lookup_empty]

/-- C4: for every cache state in which (name, version) is present with sequence
`L`, and every endpoint: `DeleteEndpoint(name, version, endpoint)` returns (the
scan-and-restart loop is a total function) and the sequence then stored for
(name, version) is the single retain pass over `L`: the elements of `L`
different from endpoint, in their order. -/
theorem DeleteEndpoint_refines_retainPass (reg : ZKRegistry) (name version endpoint : String)
    (L : List String) (hL : reg.entry name version = some L) :
    (reg.DeleteEndpoint name version endpoint).entry name version =
        some (retainPass endpoint L) ∧
      (reg.DeleteEndpoint name version endpoint).Lookup name version =
        (L.filter fun svc => svc ≠ endpoint, none) := by
  have he : (reg.DeleteEndpoint name version endpoint).entry name version =
      some (retainPass endpoint L) := by
    rw [entry_DeleteEndpoint_self, hL]
    rfl
  refine ⟨he, ?_⟩
  unfold Lookup
  rw [he]
  rfl

/-- Witness of C4: removing "a" from the stored sequence a, b, a, a leaves b. -/
theorem DeleteEndpoint_refines_retainPass_witness :
    ((((((ZKRegistry.mk 1 ∅).Add "n" "v" "a").Add "n" "v" "b").Add "n" "v" "a").Add
        "n" "v" "a").entry "n" "v" = some ["a", "b", "a", "a"]) ∧
      ((((((ZKRegistry.mk 1 ∅).Add "n" "v" "a").Add "n" "v" "b").Add "n" "v" "a").Add
        "n" "v" "a").DeleteEndpoint "n" "v" "a").Lookup "n" "v" = (["b"], none) :=
  ⟨by decide,
    (DeleteEndpoint_refines_retainPass _ "n" "v" "a" ["a", "b", "a", "a"] (by decide)).2⟩

/-- C5: for every cache state and all strings name, version: `Lookup(name,
version)` returns `ErrServiceNotFound` exactly when the service name is absent
or the service exists without that version, and then the list is nil;
otherwise it returns the stored sequence, empty or not, with a nil error. -/
theorem Lookup_not_found_iff (reg : ZKRegistry) (name version : String) :
    ((reg.Lookup name version).2 = some Error.ErrServiceNotFound ↔
        name ∉ reg.services ∨
          ∃ service, reg.services.lookup name = some service ∧ version ∉ service) ∧
      ((reg.Lookup name version).2 = some Error.ErrServiceNotFound →
        reg.Lookup name version = ([], some Error.ErrServiceNotFound)) ∧
      ∀ service targets, reg.services.lookup name = some service →
        service.lookup version = some targets → reg.Lookup name version = (targets, none) := by
  unfold Lookup entry
  cases hs : reg.services.lookup name with
  | none =>
    have hmem : name ∉ reg.services := Finmap.lookup_eq_none.mp hs
    simp [Finmap.lookup_empty, hmem]
  | some service =>
    have hmem : name ∈ reg.services := Finmap.mem_of_lookup_eq_some hs
    cases hv : service.lookup version with
    | none =>
      have hvm : version ∉ service := Finmap.lookup_eq_none.mp hv
      simp only [hv, hvm, hmem, Option.getD_some, not_true_eq_false, Option.some.injEq,
        exists_eq_left', not_false_eq_true, or_true, true_and, forall_const]
      intro service2 targets h2 ht
      subst h2
      rw [hv] at ht
      exact Option.noConfusion ht
    | some targets =>
      have hvm : version ∈ service := Finmap.mem_of_lookup_eq_some hv
      simp only [hv, hvm, hmem, Option.getD_some, not_true_eq_false, Option.some.injEq,
        exists_eq_left', or_self, reduceCtorEq, false_and, false_implies, true_and, iff_self]
      intro service2 targets2 h2 ht
      subst h2
      rw [hv] at ht
      rw [Option.some.inj ht]

/-- C6: for every cache state and all strings name, version: after
`DeleteVersion(name, version)`, `Lookup(name, version)` returns
`ErrServiceNotFound`, `Lookup(name, v)` is unchanged for every other version
`v`, and a service key that was present is still present, with the version key
deleted from its map. -/
theorem DeleteVersion_spec (reg : ZKRegistry) (name version : String) :
    (reg.DeleteVersion name version).Lookup name version =
        ([], some Error.ErrServiceNotFound) ∧
      (∀ v, v ≠ version →
        (reg.DeleteVersion name version).Lookup name v = reg.Lookup name v) ∧
      (name ∈ reg.services → name ∈ (reg.DeleteVersion name version).services) ∧
      ∀ service, reg.services.lookup name = some service →
        (reg.DeleteVersion name version).services.lookup name =
          some (service.erase version) := by
  unfold Lookup entry DeleteVersion
  cases hs : reg.services.lookup name with
  | none =>
    have hmem : name ∉ reg.services := Finmap.lookup_eq_none.mp hs
    simp [hs, hmem, Finmap.lookup_empty]
  | some service =>
    refine ⟨?_, ?_, ?_, ?_⟩
    · simp [Finmap.lookup_insert, Finmap.lookup_erase]
    · intro v hv
      simp [Finmap.lookup_insert, Finmap.lookup_erase_ne hv, hs]
    · intro _
      simp [Finmap.mem_insert]
    · intro service2 h2
      simp only [Option.some.injEq] at h2
      subst h2
      simp [Finmap.lookup_insert]

/-- Witness of C6: deleting the only version of a service leaves the service key
in place, with no version under it. -/
theorem DeleteVersion_spec_witness :
    "name" ∈ ((ZKRegistry.mk 1 ∅).Add "name" "version" "addr").services ∧
      "name" ∈
        (((ZKRegistry.mk 1 ∅).Add "name" "version" "addr").DeleteVersion
          "name" "version").services ∧
      (((ZKRegistry.mk 1 ∅).Add "name" "version" "addr").DeleteVersion
          "name" "version").services.lookup "name" = some ∅ :=
  ⟨by decide,
    (DeleteVersion_spec ((ZKRegistry.mk 1 ∅).Add "name" "version" "addr") "name"
      "version").2.2.1 (by decide),
    by decide⟩

/-- C7: for every cache state, every service name and every version string:
after `DeleteService(name)`, `Lookup(name, version)` returns
`ErrServiceNotFound` and the service key is no longer in the outer map. -/
theorem DeleteService_spec (reg : ZKRegistry) (name version : String) :
    (reg.DeleteService name).Lookup name version = ([], some Error.ErrServiceNotFound) ∧
      name ∉ (reg.DeleteService name).services := by
  unfold Lookup entry DeleteService
  simp [Finmap.lookup_erase, Finmap.lookup_empty, Finmap.not_mem_erase_self]

/-- C8: for every cache state a delete aimed at something that is not there
leaves the whole registry as it was: `DeleteEndpoint` when the service is
absent, when the version is absent, or when the endpoint does not occur in the
stored sequence; `DeleteVersion` when the service or the version is absent;
`DeleteService` when the service is absent.  Hence a `Lookup` that returned
`ErrServiceNotFound` before still does. -/
theorem delete_absent_noop (reg : ZKRegistry) (name version endpoint : String) :
    (name ∉ reg.services → reg.DeleteEndpoint name version endpoint = reg) ∧
      (∀ service, reg.services.lookup name = some service → version ∉ service →
        reg.DeleteEndpoint name version endpoint = reg) ∧
      (∀ L, reg.entry name version = some L → endpoint ∉ L →
        reg.DeleteEndpoint name version endpoint = reg) ∧
      (name ∉ reg.services → reg.DeleteVersion name version = reg) ∧
      (∀ service, reg.services.lookup name = some service → version ∉ service →
        reg.DeleteVersion name version = reg) ∧
      (name ∉ reg.services → reg.DeleteService name = reg) := by
  refine ⟨?_, ?_, ?_, ?_, ?_, ?_⟩
  · intro hn
    apply DeleteEndpoint_of_not_mem
    intro l hl
    simp [entry, Finmap.lookup_eq_none.mpr hn, Finmap.lookup_empty] at hl
  · intro service hs hv
    apply DeleteEndpoint_of_not_mem
    intro l hl
    simp [entry, hs, Finmap.lookup_eq_none.mpr hv] at hl
  · intro L hL hmem
    apply DeleteEndpoint_of_not_mem
    intro l hl
    rw [hL] at hl
    rw [← Option.some.inj hl]
    exact hmem
  · intro hn
    unfold DeleteVersion
    rw [Finmap.lookup_eq_none.mpr hn]
  · intro service hs hv
    unfold DeleteVersion
    simp only [hs]
    rw [erase_of_lookup_none service version (Finmap.lookup_eq_none.mpr hv),
      insert_lookup_self reg.services name service hs]
  · intro hn
    unfold DeleteService
    rw [erase_of_lookup_none reg.services name (Finmap.lookup_eq_none.mpr hn)]

/-- Witness of C8 on the empty cache and on a cache that holds another endpoint
of the same version: each delete returns the registry it was given. -/
theorem delete_absent_noop_witness :
    ("name" ∉ (ZKRegistry.mk 1 ∅).services ∧
        (ZKRegistry.mk 1 ∅).DeleteEndpoint "name" "version" "addr" = ZKRegistry.mk 1 ∅ ∧
        (ZKRegistry.mk 1 ∅).DeleteVersion "name" "version" = ZKRegistry.mk 1 ∅ ∧
        (ZKRegistry.mk 1 ∅).DeleteService "name" = ZKRegistry.mk 1 ∅) ∧
      (((ZKRegistry.mk 1 ∅).Add "name" "version" "other").entry "name" "version" =
          some ["other"] ∧ "addr" ∉ ["other"] ∧
        ((ZKRegistry.mk 1 ∅).Add "name" "version" "other").DeleteEndpoint
            "name" "version" "addr" =
          (ZKRegistry.mk 1 ∅).Add "name" "version" "other") :=
  ⟨⟨by decide,
      (delete_absent_noop (ZKRegistry.mk 1 ∅) "name" "version" "addr").1 (by decide),
      (delete_absent_noop (ZKRegistry.mk 1 ∅) "name" "version" "addr").2.2.2.1 (by decide),
      (delete_absent_noop (ZKRegistry.mk 1 ∅) "name" "version" "addr").2.2.2.2.2 (by decide)⟩,
    by decide, by decide,
    (delete_absent_noop ((ZKRegistry.mk 1 ∅).Add "name" "version" "other") "name" "version"
      "addr").2.2.1 ["other"] (by decide) (by decide)⟩

/-- C9: for every cache state and all strings name, version, endpoint: after
`Add(name, version, endpoint)` followed by a `DeleteEndpoint` of the same
triple, `Lookup(name, version)` succeeds, the returned sequence (the sequence
stored before, without its occurrences of endpoint) contains no occurrence
of endpoint, and the service key and the version key still exist; from the
empty cache the returned sequence is empty. -/
theorem Lookup_Add_DeleteEndpoint (reg : ZKRegistry) (name version endpoint : String) :
    ((reg.Add name version endpoint).DeleteEndpoint name version endpoint).Lookup name version =
        (retainPass endpoint ((reg.entry name version).getD []), none) ∧
      endpoint ∉
        (((reg.Add name version endpoint).DeleteEndpoint name version endpoint).Lookup
          name version).1 ∧
      name ∈ ((reg.Add name version endpoint).DeleteEndpoint name version endpoint).services ∧
      (∃ service,
        ((reg.Add name version endpoint).DeleteEndpoint name version endpoint).services.lookup
            name = some service ∧ version ∈ service) ∧
      ∀ offset : Nat,
        (((ZKRegistry.mk offset ∅).Add name version endpoint).DeleteEndpoint
          name version endpoint).Lookup name version = ([], none) := by
  have hpass : ∀ l : List String, retainPass endpoint (l ++ [endpoint]) = retainPass endpoint l := by
    intro l
    simp [retainPass, List.filter_append]
  have hentry : ∀ r : ZKRegistry,
      ((r.Add name version endpoint).DeleteEndpoint name version endpoint).entry name version =
        some (retainPass endpoint ((r.entry name version).getD [])) := by
    intro r
    rw [entry_DeleteEndpoint_self, entry_Add_self, Option.map_some', hpass]
  have hlook : ∀ r : ZKRegistry,
      ((r.Add name version endpoint).DeleteEndpoint name version endpoint).Lookup name version =
        (retainPass endpoint ((r.entry name version).getD []), none) := by
    intro r
    unfold Lookup
    rw [hentry]
  have hkeys : ∃ service,
      ((reg.Add name version endpoint).DeleteEndpoint name version endpoint).services.lookup
          name = some service ∧ version ∈ service := by
    have h := hentry reg
    unfold entry at h
    cases hs : ((reg.Add name version endpoint).DeleteEndpoint name version
        endpoint).services.lookup name with
    | none =>
      rw [hs] at h
      simp [Finmap.lookup_empty] at h
    | some service =>
      rw [hs] at h
      exact ⟨service, rfl, Finmap.mem_of_lookup_eq_some h⟩
  refine ⟨hlook reg, ?_, ?_, hkeys, ?_⟩
  · rw [hlook]
    simp [retainPass]
  · obtain ⟨service, hs, -⟩ := hkeys
    exact Finmap.mem_of_lookup_eq_some hs
  · intro offset
    rw [hlook]
    simp [entry, Finmap.lookup_empty, retainPass]

/-- C10: for every cache state and every Create notification that carries no
error and whose path decodes, with the offset of the registry, to a non-empty
name, version and endpoint: processing it in the watcher loop yields the
registry that `Add(name, version, endpoint)` yields and the loop keeps running;
from the empty cache `Lookup(name, version)` then returns `[endpoint]`. -/
theorem watcherEvent_Create (reg : ZKRegistry) (event : Event)
    (name version endpoint : String)
    (hkind : event.Kind = EventType.Create) (herr : event.Error = none)
    (hparse : parseConfigPath event.Path reg.offset = some ⟨name, version, endpoint, none⟩)
    (hname : name ≠ "") (hversion : version ≠ "") (hendpoint : endpoint ≠ "") :
    reg.watcherEvent event = some (reg.Add name version endpoint) ∧
      reg.watcherIter (Select.event event) =
        some (reg.Add name version endpoint, LoopState.Running) ∧
      (reg.services = ∅ →
        (reg.Add name version endpoint).Lookup name version = ([endpoint], none)) := by
  have hev : reg.watcherEvent event = some (reg.Add name version endpoint) := by
    unfold watcherEvent ParseConfigPath
    rw [hparse]
    simp [hkind, herr, hname, hversion, hendpoint]
  refine ⟨hev, ?_, ?_⟩
  · simp only [watcherIter, hev, Option.map_some']
  · intro hempty
    unfold Lookup
    rw [entry_Add_self]
    simp [entry, hempty, Finmap.lookup_empty]

/-- Witness of C10: the registry of root `/p/discovery` receives the creation of
`/p/discovery/name/version/addr`. -/
theorem watcherEvent_Create_witness :
    (parseConfigPath "/p/discovery/name/version/addr" (New "/p/discovery").offset =
        some ⟨"name", "version", "addr", none⟩ ∧ (New "/p/discovery").services = ∅) ∧
      (New "/p/discovery").watcherEvent ⟨"/p/discovery/name/version/addr", EventType.Create, none⟩ =
        some ((New "/p/discovery").Add "name" "version" "addr") ∧
      ((New "/p/discovery").Add "name" "version" "addr").Lookup "name" "version" =
        (["addr"], none) :=
  ⟨⟨by decide, rfl⟩,
    (watcherEvent_Create (New "/p/discovery")
      ⟨"/p/discovery/name/version/addr", EventType.Create, none⟩ "name" "version" "addr"
      rfl rfl (by decide) (by decide) (by decide) (by decide)).1,
    (watcherEvent_Create (New "/p/discovery")
      ⟨"/p/discovery/name/version/addr", EventType.Create, none⟩ "name" "version" "addr"
      rfl rfl (by decide) (by decide) (by decide) (by decide)).2.2 rfl⟩

end ZKRegistry

/-! ## parseConfigPath: no panic for an offset that converts exactly -/

/-- Normal form of `parseConfigPath` when `offset + 3` is representable as an
int: all comparisons and indices are those of the natural numbers. -/
theorem parseConfigPath_no_wrap (zkPath : String) (offset : Nat) (h3 : offset + 3 < 2 ^ 63) :
    parseConfigPath zkPath offset =
      if (Split (sanitizePath zkPath) '/').length < offset ∨
          offset + 3 < (Split (sanitizePath zkPath) '/').length then
        some ⟨"", "", "", some (Error.invalidPath (sanitizePath zkPath))⟩
      else if (Split (sanitizePath zkPath) '/').length = offset then
        some ⟨"", "", "", none⟩
      else if (Split (sanitizePath zkPath) '/').length = offset + 1 then
        ((Split (sanitizePath zkPath) '/')[offset]?).bind fun p0 => some ⟨p0, "", "", none⟩
      else if (Split (sanitizePath zkPath) '/').length = offset + 2 then
        ((Split (sanitizePath zkPath) '/')[offset]?).bind fun p0 =>
        ((Split (sanitizePath zkPath) '/')[offset + 1]?).bind fun p1 => some ⟨p0, p1, "", none⟩
      else
        ((Split (sanitizePath zkPath) '/')[offset]?).bind fun p0 =>
        ((Split (sanitizePath zkPath) '/')[offset + 1]?).bind fun p1 =>
        ((Split (sanitizePath zkPath) '/')[offset + 2]?).bind fun p2 =>
          some ⟨p0, p1, p2, none⟩ := by
  unfold parseConfigPath
  simp only []
  rw [intOfUint_of_lt offset (by omega), addInt_small offset 3 (by omega) (by omega),
    addInt_small offset 2 (by omega) (by omega), addInt_small offset 1 (by omega) (by omega),
    index_natCast, index_natCast_add _ _ 1 (by omega), index_natCast_add _ _ 2 (by omega)]
  generalize (Split (sanitizePath zkPath) '/') = parts at *
  have e1 : (1 : Int).toNat = 1 := rfl
  have e2 : (2 : Int).toNat = 2 := rfl
  rw [e1, e2]
  by_cases hc : parts.length < offset ∨ offset + 3 < parts.length
  · rw [if_pos hc, if_pos (by omega)]
  · rw [if_neg hc, if_neg (by omega)]
    by_cases h0 : parts.length = offset
    · rw [if_pos (by omega), if_pos h0]
    · rw [if_neg (by omega), if_neg h0]
      by_cases h1 : parts.length = offset + 1
      · rw [if_pos (by omega), if_pos h1]
      · rw [if_neg (by omega), if_neg h1]
        by_cases h2 : parts.length = offset + 2
        · rw [if_pos (by omega), if_pos h2]
        · rw [if_neg (by omega), if_neg h2]

/-- When `offset` converts exactly but `offset + 3` wraps, every path is
reported invalid. -/
theorem parseConfigPath_wrap (zkPath : String) (offset : Nat) (hoff : offset < 2 ^ 63)
    (h3 : 2 ^ 63 ≤ offset + 3) :
    parseConfigPath zkPath offset =
      some ⟨"", "", "", some (Error.invalidPath (sanitizePath zkPath))⟩ := by
  unfold parseConfigPath
  simp only []
  rw [intOfUint_of_lt offset hoff, if_pos]
  right
  unfold addInt wrapInt
  omega

/-- For an offset that converts exactly to a non-negative int, `parseConfigPath`
returns: no index is out of range. -/
theorem parseConfigPath_no_panic (zkPath : String) (offset : Nat) (hoff : offset < 2 ^ 63) :
    ∃ r, parseConfigPath zkPath offset = some r := by
  by_cases h3 : offset + 3 < 2 ^ 63
  · rw [parseConfigPath_no_wrap zkPath offset h3]
    generalize (Split (sanitizePath zkPath) '/') = parts
    by_cases hc : parts.length < offset ∨ offset + 3 < parts.length
    · rw [if_pos hc]; exact ⟨_, rfl⟩
    rw [if_neg hc]
    by_cases h0 : parts.length = offset
    · rw [if_pos h0]; exact ⟨_, rfl⟩
    rw [if_neg h0]
    obtain ⟨p0, hp0⟩ := exists_getElem?_of_lt parts offset (by omega)
    rw [hp0]
    by_cases h1 : parts.length = offset + 1
    · rw [if_pos h1]; exact ⟨_, rfl⟩
    rw [if_neg h1]
    obtain ⟨p1, hp1⟩ := exists_getElem?_of_lt parts (offset + 1) (by omega)
    rw [hp1]
    by_cases h2 : parts.length = offset + 2
    · rw [if_pos h2]; exact ⟨_, rfl⟩
    rw [if_neg h2]
    obtain ⟨p2, hp2⟩ := exists_getElem?_of_lt parts (offset + 2) (by omega)
    rw [hp2]
    exact ⟨_, rfl⟩
  · exact ⟨_, parseConfigPath_wrap zkPath offset hoff (by omega)⟩

/-- The offset that `New` stores converts exactly to a non-negative int,
`len` being an int. -/
theorem New_offset_lt (zkPath : String)
    (hlen : (Split (sanitizePath zkPath) '/').length < 2 ^ 63) :
    (New zkPath).offset < 2 ^ 63 := by
  unfold New uintOfInt
  simp only []
  omega

/-! ## The watcher loop -/

namespace ZKRegistry

/-- The event case of the loop, once the path has been decoded without panic. -/
theorem watcherEvent_of_parse (reg : ZKRegistry) (event : Event) (r : ParseResult)
    (hparse : parseConfigPath event.Path reg.offset = some r) :
    reg.watcherEvent event =
      if r.err ≠ none then some reg
      else if event.Error ≠ none then some reg
      else if r.serviceName = "" then some reg
      else
        match event.Kind with
        | .Create =>
          if r.serviceVersion ≠ "" ∧ r.endpoint ≠ "" then
            some (reg.Add r.serviceName r.serviceVersion r.endpoint)
          else some reg
        | .Delete =>
          if r.serviceVersion = "" then some (reg.DeleteService r.serviceName)
          else if r.endpoint = "" then some (reg.DeleteVersion r.serviceName r.serviceVersion)
          else some (reg.DeleteEndpoint r.serviceName r.serviceVersion r.endpoint)
        | .Update => some reg := by
  unfold watcherEvent ParseConfigPath
  rw [hparse]
  rfl

/-- An iteration on an event that is processed keeps the loop running. -/
theorem watcherIter_event (reg reg2 : ZKRegistry) (event : Event)
    (h : reg.watcherEvent event = some reg2) :
    reg.watcherIter (Select.event event) = some (reg2, LoopState.Running) := by
  simp only [watcherIter, h, Option.map_some']

/-- After `DeleteService` the service has no entry and its key is gone. -/
theorem entry_DeleteService_self (reg : ZKRegistry) (name v : String) :
    (reg.DeleteService name).entry name v = none ∧ name ∉ (reg.DeleteService name).services := by
  unfold DeleteService entry
  simp [Finmap.lookup_erase, Finmap.lookup_empty, Finmap.not_mem_erase_self]

/-- After `DeleteVersion` the pair has no entry, the other versions of the
service keep theirs, and a service key that was present stays. -/
theorem entry_DeleteVersion (reg : ZKRegistry) (name version : String) :
    (reg.DeleteVersion name version).entry name version = none ∧
      (∀ v, v ≠ version → (reg.DeleteVersion name version).entry name v = reg.entry name v) ∧
      (name ∈ reg.services → name ∈ (reg.DeleteVersion name version).services) := by
  unfold DeleteVersion entry
  cases hs : reg.services.lookup name with
  | none =>
    have hmem : name ∉ reg.services := Finmap.lookup_eq_none.mp hs
    simp [hs, hmem, Finmap.lookup_empty]
  | some service =>
    refine ⟨?_, ?_, ?_⟩
    · simp [Finmap.lookup_insert, Finmap.lookup_erase]
    · intro v hv
      simp [Finmap.lookup_insert, Finmap.lookup_erase_ne hv, hs]
    · intro _
      simp [Finmap.mem_insert]

/-- C11: for every cache state and every Delete notification that carries no
error and whose path decodes to a non-empty name: processing it yields the
registry of `DeleteService(name)` when the decoded version is empty, of
`DeleteVersion(name, version)` when the version is non-empty and the endpoint
is empty, and of `DeleteEndpoint(name, version, endpoint)` when all three are
non-empty.  Read back from the registry that processing yields: in the first
case the service key is gone and every `Lookup` under the name is not found; in
the second the pair is not found, the other versions read as before and a
present service key stays; in the third the pair holds what it held without
the occurrences of the endpoint. -/
theorem watcherEvent_Delete (reg : ZKRegistry) (event : Event)
    (name version endpoint : String)
    (hkind : event.Kind = EventType.Delete) (herr : event.Error = none)
    (hparse : parseConfigPath event.Path reg.offset = some ⟨name, version, endpoint, none⟩)
    (hname : name ≠ "") :
    (version = "" → reg.watcherEvent event = some (reg.DeleteService name)) ∧
      (version ≠ "" → endpoint = "" →
        reg.watcherEvent event = some (reg.DeleteVersion name version)) ∧
      (version ≠ "" → endpoint ≠ "" →
        reg.watcherEvent event = some (reg.DeleteEndpoint name version endpoint)) ∧
      ∃ reg2, reg.watcherEvent event = some reg2 ∧
        (version = "" →
          name ∉ reg2.services ∧
            ∀ v, reg2.Lookup name v = ([], some Error.ErrServiceNotFound)) ∧
        (version ≠ "" → endpoint = "" →
          reg2.Lookup name version = ([], some Error.ErrServiceNotFound) ∧
            (∀ v, v ≠ version → reg2.Lookup name v = reg.Lookup name v) ∧
            (name ∈ reg.services → name ∈ reg2.services)) ∧
        (version ≠ "" → endpoint ≠ "" →
          reg2.entry name version = (reg.entry name version).map (retainPass endpoint) ∧
            ∀ L, reg.entry name version = some L →
              reg2.Lookup name version = (L.filter fun svc => svc ≠ endpoint, none)) := by
  have hof := watcherEvent_of_parse reg event _ hparse
  simp only [hkind, herr, hname, ne_eq, not_true_eq_false, if_false] at hof
  by_cases hv : version = ""
  · have hev : reg.watcherEvent event = some (reg.DeleteService name) := by
      rw [hof]
      simp only [hv, if_true]
    refine ⟨fun _ => hev, fun h => absurd hv h, fun h => absurd hv h,
      reg.DeleteService name, hev, ?_, fun h => absurd hv h, fun h => absurd hv h⟩
    intro _
    refine ⟨(entry_DeleteService_self reg name "").2, ?_⟩
    intro v
    unfold Lookup
    rw [(entry_DeleteService_self reg name v).1]
  · by_cases he : endpoint = ""
    · have hev : reg.watcherEvent event = some (reg.DeleteVersion name version) := by
        rw [hof]
        simp only [hv, he, if_false, if_true]
      refine ⟨fun h => absurd h hv, fun _ _ => hev, fun _ h => absurd he h,
        reg.DeleteVersion name version, hev, fun h => absurd h hv, ?_, fun _ h => absurd he h⟩
      intro _ _
      obtain ⟨h1, h2, h3⟩ := entry_DeleteVersion reg name version
      refine ⟨?_, ?_, h3⟩
      · unfold Lookup
        rw [h1]
      · intro v hne
        unfold Lookup
        rw [h2 v hne]
    · have hev : reg.watcherEvent event = some (reg.DeleteEndpoint name version endpoint) := by
        rw [hof]
        simp only [hv, he, if_false]
      refine ⟨fun h => absurd h hv, fun _ h => absurd h he, fun _ _ => hev,
        reg.DeleteEndpoint name version endpoint, hev, fun h => absurd h hv,
        fun _ h => absurd h he, ?_⟩
      intro _ _
      refine ⟨entry_DeleteEndpoint_self reg name version endpoint, ?_⟩
      intro L hL
      unfold Lookup
      rw [entry_DeleteEndpoint_self, hL]
      rfl

/-- Witness of C11 on the registry of root `/p/discovery` that holds addr and
other under name/version: the deletion of the endpoint node addr leaves other,
the deletion of the version node leaves the pair not found under a service key
that stays, and the deletion of the service node removes the service key. -/
theorem watcherEvent_Delete_witness :
    (((New "/p/discovery").Add "name" "version" "addr").Add "name" "version" "other").Lookup
        "name" "version" = (["addr", "other"], none) ∧
    (parseConfigPath "/p/discovery/name/version/addr"
        (((New "/p/discovery").Add "name" "version" "addr").Add "name" "version" "other").offset =
        some ⟨"name", "version", "addr", none⟩ ∧
      ∃ reg2,
        (((New "/p/discovery").Add "name" "version" "addr").Add "name" "version"
          "other").watcherEvent ⟨"/p/discovery/name/version/addr", EventType.Delete, none⟩ =
            some reg2 ∧
          reg2.Lookup "name" "version" = (["other"], none)) ∧
    (parseConfigPath "/p/discovery/name/version"
        (((New "/p/discovery").Add "name" "version" "addr").Add "name" "version" "other").offset =
        some ⟨"name", "version", "", none⟩ ∧
      ∃ reg2,
        (((New "/p/discovery").Add "name" "version" "addr").Add "name" "version"
          "other").watcherEvent ⟨"/p/discovery/name/version", EventType.Delete, none⟩ =
            some reg2 ∧
          reg2.Lookup "name" "version" = ([], some Error.ErrServiceNotFound) ∧
          "name" ∈ reg2.services) ∧
    (parseConfigPath "/p/discovery/name"
        (((New "/p/discovery").Add "name" "version" "addr").Add "name" "version" "other").offset =
        some ⟨"name", "", "", none⟩ ∧
      "name" ∈
        (((New "/p/discovery").Add "name" "version" "addr").Add "name" "version"
          "other").services ∧
      ∃ reg2,
        (((New "/p/discovery").Add "name" "version" "addr").Add "name" "version"
          "other").watcherEvent ⟨"/p/discovery/name", EventType.Delete, none⟩ = some reg2 ∧
          "name" ∉ reg2.services ∧
          reg2.Lookup "name" "version" = ([], some Error.ErrServiceNotFound)) := by
  refine ⟨by decide, ⟨by decide, ?_⟩, ⟨by decide, ?_⟩, ⟨by decide, by decide, ?_⟩⟩
  · obtain ⟨reg2, hev, -, -, h3⟩ :=
      (watcherEvent_Delete
        (((New "/p/discovery").Add "name" "version" "addr").Add "name" "version" "other")
        ⟨"/p/discovery/name/version/addr", EventType.Delete, none⟩
        "name" "version" "addr" rfl rfl (by decide) (by decide)).2.2.2
    exact ⟨reg2, hev, (h3 (by decide) (by decide)).2 ["addr", "other"] (by decide)⟩
  · obtain ⟨reg2, hev, -, h2, -⟩ :=
      (watcherEvent_Delete
        (((New "/p/discovery").Add "name" "version" "addr").Add "name" "version" "other")
        ⟨"/p/discovery/name/version", EventType.Delete, none⟩
        "name" "version" "" rfl rfl (by decide) (by decide)).2.2.2
    obtain ⟨ha, -, hc⟩ := h2 (by decide) rfl
    exact ⟨reg2, hev, ha, hc (by decide)⟩
  · obtain ⟨reg2, hev, h1, -, -⟩ :=
      (watcherEvent_Delete
        (((New "/p/discovery").Add "name" "version" "addr").Add "name" "version" "other")
        ⟨"/p/discovery/name", EventType.Delete, none⟩
        "name" "" "" rfl rfl (by decide) (by decide)).2.2.2
    obtain ⟨ha, hb⟩ := h1 rfl
    exact ⟨reg2, hev, ha, hb "version"⟩

/-- C12: for every cache state and every Create notification whose path decodes
to a service-level or version-level node (the decoded endpoint is empty, with
or without a version), processing the notification leaves the registry as it
was: no service key and no version key is created. -/
theorem watcherEvent_Create_parent (reg : ZKRegistry) (event : Event) (r : ParseResult)
    (hkind : event.Kind = EventType.Create)
    (hparse : parseConfigPath event.Path reg.offset = some r)
    (hendpoint : r.endpoint = "") :
    reg.watcherEvent event = some reg ∧
      reg.watcherIter (Select.event event) = some (reg, LoopState.Running) := by
  have hev : reg.watcherEvent event = some reg := by
    rw [watcherEvent_of_parse reg event r hparse]
    simp only [hkind, hendpoint, ne_eq, not_true_eq_false, and_false, if_false, ite_self]
  exact ⟨hev, watcherIter_event reg reg event hev⟩

/-- Witness of C12: on the empty registry of root `/p/discovery`, the creation
of a service node and of a version node create no key. -/
theorem watcherEvent_Create_parent_witness :
    (parseConfigPath "/p/discovery/name" (New "/p/discovery").offset =
        some ⟨"name", "", "", none⟩ ∧
      (New "/p/discovery").watcherEvent ⟨"/p/discovery/name", EventType.Create, none⟩ =
        some (New "/p/discovery")) ∧
    (parseConfigPath "/p/discovery/name/version" (New "/p/discovery").offset =
        some ⟨"name", "version", "", none⟩ ∧
      (New "/p/discovery").watcherEvent ⟨"/p/discovery/name/version", EventType.Create, none⟩ =
        some (New "/p/discovery")) ∧
    "name" ∉ (New "/p/discovery").services :=
  ⟨⟨by decide,
      (watcherEvent_Create_parent (New "/p/discovery")
        ⟨"/p/discovery/name", EventType.Create, none⟩ ⟨"name", "", "", none⟩ rfl (by decide)
        rfl).1⟩,
    ⟨by decide,
      (watcherEvent_Create_parent (New "/p/discovery")
        ⟨"/p/discovery/name/version", EventType.Create, none⟩ ⟨"name", "version", "", none⟩ rfl
        (by decide) rfl).1⟩,
    by decide⟩

/-- C13: for every cache state and every Update notification, whatever its path
and whether or not it carries an error, processing the notification never
yields another registry, and with the offset of a registry built by `New`
(an int converted to uint, hence below `2^63`) it returns the registry
unchanged and the loop keeps running. -/
theorem watcherEvent_Update (reg : ZKRegistry) (event : Event)
    (hkind : event.Kind = EventType.Update) :
    (∀ reg2, reg.watcherEvent event = some reg2 → reg2 = reg) ∧
      (reg.offset < 2 ^ 63 →
        reg.watcherEvent event = some reg ∧
          reg.watcherIter (Select.event event) = some (reg, LoopState.Running)) := by
  have hsome : ∀ r, parseConfigPath event.Path reg.offset = some r →
      reg.watcherEvent event = some reg := by
    intro r hr
    rw [watcherEvent_of_parse reg event r hr]
    simp only [hkind, ite_self]
  constructor
  · intro reg2 h2
    cases hp : parseConfigPath event.Path reg.offset with
    | none =>
      simp [watcherEvent, ParseConfigPath, hp] at h2
    | some r =>
      rw [hsome r hp] at h2
      exact (Option.some.inj h2).symm
  · intro hoff
    obtain ⟨r, hr⟩ := parseConfigPath_no_panic event.Path reg.offset hoff
    exact ⟨hsome r hr, watcherIter_event reg reg event (hsome r hr)⟩

/-- Witness of C13: an Update of an endpoint node, with and without a watch
error, leaves a registry that holds that endpoint as it was. -/
theorem watcherEvent_Update_witness :
    ((New "/p/discovery").Add "name" "version" "addr").offset < 2 ^ 63 ∧
      ((New "/p/discovery").Add "name" "version" "addr").watcherEvent
          ⟨"/p/discovery/name/version/addr", EventType.Update, none⟩ =
        some ((New "/p/discovery").Add "name" "version" "addr") ∧
      ((New "/p/discovery").Add "name" "version" "addr").watcherEvent
          ⟨"/p/discovery/name/version/addr", EventType.Update, some "connection loss"⟩ =
        some ((New "/p/discovery").Add "name" "version" "addr") :=
  ⟨by decide,
    ((watcherEvent_Update ((New "/p/discovery").Add "name" "version" "addr")
      ⟨"/p/discovery/name/version/addr", EventType.Update, none⟩ rfl).2 (by decide)).1,
    ((watcherEvent_Update ((New "/p/discovery").Add "name" "version" "addr")
      ⟨"/p/discovery/name/version/addr", EventType.Update, some "connection loss"⟩ rfl).2
      (by decide)).1⟩

/-- C14: for every cache state, with the offset of a registry built by `New`
(below `2^63`), and every notification of any kind: if the notification
carries an error, or its path fails to decode against the offset of the
registry, or its path decodes to an empty name, then processing it leaves the
registry unchanged and the loop remains in the Running state. -/
theorem watcherEvent_dropped (reg : ZKRegistry) (event : Event)
    (hoff : reg.offset < 2 ^ 63)
    (hdrop : event.Error ≠ none ∨
      ∃ r, parseConfigPath event.Path reg.offset = some r ∧
        (r.err ≠ none ∨ r.serviceName = "")) :
    reg.watcherEvent event = some reg ∧
      reg.watcherIter (Select.event event) = some (reg, LoopState.Running) := by
  have hev : reg.watcherEvent event = some reg := by
    obtain ⟨r, hr⟩ := parseConfigPath_no_panic event.Path reg.offset hoff
    rw [watcherEvent_of_parse reg event r hr]
    by_cases herr : r.err ≠ none
    · rw [if_pos herr]
    rw [if_neg herr]
    by_cases hwatch : event.Error ≠ none
    · rw [if_pos hwatch]
    rw [if_neg hwatch]
    have hname : r.serviceName = "" := by
      rcases hdrop with h | ⟨r2, hr2, h⟩
      · exact absurd h hwatch
      · rw [hr] at hr2
        have hrr : r = r2 := Option.some.inj hr2
        subst hrr
        rcases h with h | h
        · exact absurd h herr
        · exact h
    rw [if_pos hname]
  exact ⟨hev, watcherIter_event reg reg event hev⟩

/-- Witness of C14 on a registry that holds one endpoint: a Delete of
that endpoint carrying a watch error, a Delete whose path is too deep, and a
Delete on the root are all dropped. -/
theorem watcherEvent_dropped_witness :
    ((New "/p/discovery").Add "name" "version" "addr").offset < 2 ^ 63 ∧
      ((New "/p/discovery").Add "name" "version" "addr").watcherIter
          (Select.event ⟨"/p/discovery/name/version/addr", EventType.Delete, some "lost"⟩) =
        some ((New "/p/discovery").Add "name" "version" "addr", LoopState.Running) ∧
      ((New "/p/discovery").Add "name" "version" "addr").watcherIter
          (Select.event ⟨"/p/discovery/name/version/addr/x", EventType.Delete, none⟩) =
        some ((New "/p/discovery").Add "name" "version" "addr", LoopState.Running) ∧
      ((New "/p/discovery").Add "name" "version" "addr").watcherIter
          (Select.event ⟨"/p/discovery", EventType.Delete, none⟩) =
        some ((New "/p/discovery").Add "name" "version" "addr", LoopState.Running) :=
  ⟨by decide,
    (watcherEvent_dropped ((New "/p/discovery").Add "name" "version" "addr")
      ⟨"/p/discovery/name/version/addr", EventType.Delete, some "lost"⟩ (by decide)
      (Or.inl (by decide))).2,
    (watcherEvent_dropped ((New "/p/discovery").Add "name" "version" "addr")
      ⟨"/p/discovery/name/version/addr/x", EventType.Delete, none⟩ (by decide)
      (Or.inr ⟨⟨"", "", "", some (Error.invalidPath "p/discovery/name/version/addr/x")⟩,
        by decide, Or.inl (by decide)⟩)).2,
    (watcherEvent_dropped ((New "/p/discovery").Add "name" "version" "addr")
      ⟨"/p/discovery", EventType.Delete, none⟩ (by decide)
      (Or.inr ⟨⟨"", "", "", none⟩, by decide, Or.inr rfl⟩)).2⟩

end ZKRegistry

/-! ## Offsets: the root path `/` and the top of the uint range -/

/-- Splitting never yields the empty slice. -/
theorem splitChars_length_pos (sep : Char) (cs : List Char) : 0 < (splitChars sep cs).length := by
  induction cs with
  | nil => simp [splitChars]
  | cons c cs ih =>
    simp only [splitChars]
    split
    · simp
    · split
      · simp
      · simp

/-- `strings.Split` returns at least one part. -/
theorem Split_length_pos (s : String) (sep : Char) : 0 < (Split s sep).length := by
  unfold Split
  rw [List.length_map]
  exact splitChars_length_pos sep s.data

/-- Below the last two values of the uint range, an offset that exceeds the
number of parts is reported as an invalid path, also when `int(offset)` wraps
to a negative number. -/
theorem parseConfigPath_offset_exceeds (zkPath : String) (offset : Nat)
    (hoff : offset < 2 ^ 64 - 2)
    (hlen : (Split (sanitizePath zkPath) '/').length < 2 ^ 63)
    (hlt : (Split (sanitizePath zkPath) '/').length < offset) :
    parseConfigPath zkPath offset =
      some ⟨"", "", "", some (Error.invalidPath (sanitizePath zkPath))⟩ := by
  by_cases h63 : offset < 2 ^ 63
  · exact parseConfigPath_of_lt zkPath offset h63 hlt
  · have hpos := Split_length_pos (sanitizePath zkPath) '/'
    unfold parseConfigPath
    simp only []
    rw [if_pos]
    right
    unfold addInt intOfUint wrapInt
    omega

/-- C15, evaluated at the root path `/`: `New` stores the offset 1 (the
sanitized root is empty and splits into one empty part), so the path of the
node name/version/endpoint beneath the root decodes to (version, endpoint, "")
and its Create notification adds nothing. -/
theorem New_root_slash_misaligned :
    (New "/").offset = 1 ∧
      parseConfigPath "/name/version/endpoint" (New "/").offset =
        some ⟨"version", "endpoint", "", none⟩ ∧
      (New "/").watcherEvent ⟨"/name/version/endpoint", EventType.Create, none⟩ =
        some (New "/") ∧
      ((New "/").Lookup "name" "version").2 = some Error.ErrServiceNotFound := by
  refine ⟨by decide, by decide, ?_, by decide⟩
  rw [ZKRegistry.watcherEvent_of_parse (New "/")
    ⟨"/name/version/endpoint", EventType.Create, none⟩ ⟨"version", "endpoint", "", none⟩
    (by decide)]
  rfl

/-- C16, evaluated at the largest uint: `int(offset)` is -1, the path `a` has
one part, the case `len(parts) == off+2` is taken and `parts[-1]` panics; with
the offset `2^64 - 2` the default case panics on `parts[-2]`.  Both offsets
exceed the number of parts. -/
theorem parseConfigPath_panics_at_top_offsets :
    (Split (sanitizePath "a") '/').length < 2 ^ 64 - 1 ∧
      parseConfigPath "a" (2 ^ 64 - 1) = none ∧
      parseConfigPath "a/b" (2 ^ 64 - 1) = none ∧
      parseConfigPath "a" (2 ^ 64 - 2) = none := by
  refine ⟨by decide, by decide, by decide, by decide⟩

/-! ## sanitizePath -/

/-- A list with a first character is not empty. -/
theorem length_pos_and_head? (l : List Char) (c : Char) :
    (0 < l.length ∧ l.head? = some c) ↔ l.head? = some c := by
  constructor
  · exact fun h => h.2
  · intro h
    cases l with
    | nil => simp at h
    | cons a l => exact ⟨by simp, h⟩

/-- A list with a last character is not empty. -/
theorem length_pos_and_getLast? (l : List Char) (c : Char) :
    (0 < l.length ∧ l.getLast? = some c) ↔ l.getLast? = some c := by
  constructor
  · exact fun h => h.2
  · intro h
    cases l with
    | nil => simp at h
    | cons a l => exact ⟨by simp, h⟩

/-- The characters of the sanitized path: the guards on the length are implied
by the tests on the first and on the last character. -/
theorem sanitizePath_data (p : String) :
    (sanitizePath p).data =
      if (if p.data.head? = some '/' then p.data.tail else p.data).getLast? = some '/' then
        (if p.data.head? = some '/' then p.data.tail else p.data).dropLast
      else (if p.data.head? = some '/' then p.data.tail else p.data) := by
  unfold sanitizePath
  simp only [String.length, length_pos_and_head?, length_pos_and_getLast?, List.drop_one]
  by_cases h1 : p.data.head? = some '/'
  · simp only [h1, if_true]
    by_cases h2 : p.data.tail.getLast? = some '/'
    · simp only [h2, if_true]
    · simp only [h2, if_false]
  · simp only [h1, if_false]
    by_cases h2 : p.data.getLast? = some '/'
    · simp only [h2, if_true]
    · simp only [h2, if_false]

/-- Sanitizing removes a character whenever the path begins or ends with a
slash. -/
theorem sanitizePath_length_lt (q : String)
    (h : q.data.head? = some '/' ∨ q.data.getLast? = some '/') :
    (sanitizePath q).data.length < q.data.length := by
  rw [sanitizePath_data]
  have hpos : 0 < q.data.length := by
    cases hq : q.data with
    | nil => rw [hq] at h; simp at h
    | cons a l => simp
  by_cases h1 : q.data.head? = some '/'
  · simp only [h1, if_true]
    split
    · simp only [List.length_dropLast, List.length_tail]; omega
    · simp only [List.length_tail]; omega
  · simp only [h1, if_false]
    have h2 : q.data.getLast? = some '/' := h.resolve_left h1
    simp only [h2, if_true, List.length_dropLast]
    omega

/-- A path is left alone exactly when it neither begins nor ends with a
slash. -/
theorem sanitizePath_eq_self_iff (q : String) :
    sanitizePath q = q ↔ q.data.head? ≠ some '/' ∧ q.data.getLast? ≠ some '/' := by
  constructor
  · intro h
    by_contra hnot
    have hor : q.data.head? = some '/' ∨ q.data.getLast? = some '/' := by
      by_cases h1 : q.data.head? = some '/'
      · exact Or.inl h1
      · by_cases h2 : q.data.getLast? = some '/'
        · exact Or.inr h2
        · exact absurd ⟨h1, h2⟩ hnot
    have hlt := sanitizePath_length_lt q hor
    rw [h] at hlt
    exact Nat.lt_irrefl _ hlt
  · intro ⟨h1, h2⟩
    apply String.ext
    rw [sanitizePath_data]
    simp only [h1, h2, if_false]

/-- Dropping the last element keeps the first one. -/
theorem head?_of_head?_dropLast (a : List Char) (c : Char) (h : a.dropLast.head? = some c) :
    a.head? = some c := by
  cases a with
  | nil => simp at h
  | cons x r =>
    cases r with
    | nil => simp at h
    | cons y r => simpa using h

/-- A sanitized path that begins with a slash comes from a path that begins
with two. -/
theorem leading_slashes_of_sanitizePath (p : String)
    (h : (sanitizePath p).data.head? = some '/') : ['/', '/'] <+: p.data := by
  rw [sanitizePath_data] at h
  have ha : (if p.data.head? = some '/' then p.data.tail else p.data).head? = some '/' := by
    generalize (if p.data.head? = some '/' then p.data.tail else p.data) = a at h
    by_cases h2 : a.getLast? = some '/'
    · rw [if_pos h2] at h
      exact head?_of_head?_dropLast _ _ h
    · rw [if_neg h2] at h
      exact h
  by_cases h1 : p.data.head? = some '/'
  · rw [if_pos h1] at ha
    cases hp : p.data with
    | nil => rw [hp] at h1; simp at h1
    | cons x r =>
      rw [hp] at h1 ha
      cases r with
      | nil => simp at ha
      | cons y r =>
        simp only [List.head?_cons, Option.some.injEq, List.tail_cons] at h1 ha
        subst h1 ha
        exact ⟨r, rfl⟩
  · rw [if_neg h1] at ha
    exact absurd ha h1

/-- A sanitized path that ends with a slash comes from a path that ends with
two. -/
theorem trailing_slashes_of_sanitizePath (p : String)
    (h : (sanitizePath p).data.getLast? = some '/') : ['/', '/'] <:+ p.data := by
  rw [sanitizePath_data] at h
  have hsub : (if p.data.head? = some '/' then p.data.tail else p.data) <:+ p.data := by
    split
    · exact List.tail_suffix _
    · exact List.suffix_refl _
  generalize (if p.data.head? = some '/' then p.data.tail else p.data) = a at h hsub
  by_cases h2 : a.getLast? = some '/'
  · rw [if_pos h2] at h
    have e1 := List.dropLast_append_getLast? _ (Option.mem_def.mpr h2)
    have e2 := List.dropLast_append_getLast? _ (Option.mem_def.mpr h)
    refine List.IsSuffix.trans ⟨a.dropLast.dropLast, ?_⟩ hsub
    rw [← e1, ← e2]
    simp
  · rw [if_neg h2] at h
    exact absurd h h2

/-- C19: `sanitizePath` strips exactly one leading and one trailing slash and
nothing else: the result is the path with its first character removed if that
is a slash, and then with the last character of what remains removed if that
is a slash (`stripOne`).  In particular the empty path and `/` give the empty
path, `/` ++ s ++ `/` gives `s` for every string `s`, and a path that neither
begins nor ends with a slash is returned as it is. -/
theorem sanitizePath_strips_one (p s : String) :
    sanitizePath p = stripOne p ∧ sanitizePath "" = "" ∧ sanitizePath "/" = "" ∧
      sanitizePath ("/" ++ s ++ "/") = s ∧
      (p.data.head? ≠ some '/' → p.data.getLast? ≠ some '/' → sanitizePath p = p) := by
  refine ⟨?_, by decide, by decide, ?_, ?_⟩
  · apply String.ext
    rw [sanitizePath_data]
    rfl
  · apply String.ext
    rw [sanitizePath_data]
    have hd : ("/" ++ s ++ "/").data = '/' :: (s.data ++ ['/']) := by
      simp only [String.data_append]
      rfl
    rw [hd]
    simp
  · intro h1 h2
    exact (sanitizePath_eq_self_iff p).mpr ⟨h1, h2⟩

/-- Witness of C19 on a path without a slash at either end. -/
theorem sanitizePath_strips_one_witness :
    ("a/b/c/d/e".data.head? ≠ some '/' ∧ "a/b/c/d/e".data.getLast? ≠ some '/') ∧
      sanitizePath "a/b/c/d/e" = "a/b/c/d/e" ∧ sanitizePath "/a/b/c/d/" = "a/b/c/d" :=
  ⟨⟨by decide, by decide⟩,
    (sanitizePath_strips_one "a/b/c/d/e" "").2.2.2.2 (by decide) (by decide),
    (sanitizePath_strips_one "" "a/b/c/d").2.2.2.1⟩

/-- C17, counterexample: the path `//a//` sanitizes to `/a/`, which sanitizes to
`a`. -/
theorem sanitizePath_not_idempotent :
    sanitizePath "//a//" = "/a/" ∧ sanitizePath (sanitizePath "//a//") = "a" ∧
      sanitizePath (sanitizePath "//a//") ≠ sanitizePath "//a//" := by
  decide

/-- C17, amended: `sanitizePath(sanitizePath(p)) = sanitizePath(p)` holds exactly
for the paths whose sanitized form neither begins nor ends with a slash, and so
for every path that neither begins with two slashes nor ends with two
slashes. -/
theorem sanitizePath_idempotent_iff (p : String) :
    (sanitizePath (sanitizePath p) = sanitizePath p ↔
        (sanitizePath p).data.head? ≠ some '/' ∧ (sanitizePath p).data.getLast? ≠ some '/') ∧
      (¬ ['/', '/'] <+: p.data → ¬ ['/', '/'] <:+ p.data →
        sanitizePath (sanitizePath p) = sanitizePath p) := by
  refine ⟨sanitizePath_eq_self_iff (sanitizePath p), ?_⟩
  intro hpre hsuf
  exact (sanitizePath_eq_self_iff (sanitizePath p)).mpr
    ⟨fun h => hpre (leading_slashes_of_sanitizePath p h),
      fun h => hsuf (trailing_slashes_of_sanitizePath p h)⟩

/-- Witness of C17 as amended, on a path with one slash at each end. -/
theorem sanitizePath_idempotent_iff_witness :
    (¬ ['/', '/'] <+: "/a/b/".data ∧ ¬ ['/', '/'] <:+ "/a/b/".data) ∧
      sanitizePath (sanitizePath "/a/b/") = sanitizePath "/a/b/" :=
  ⟨⟨by decide, by decide⟩, (sanitizePath_idempotent_iff "/a/b/").2 (by decide) (by decide)⟩

/-! ## Splitting and the offset of a root path -/

/-- Splitting at a separator splits the two sides. -/
theorem splitChars_append_sep (sep : Char) (a b : List Char) :
    splitChars sep (a ++ sep :: b) = splitChars sep a ++ splitChars sep b := by
  induction a with
  | nil => simp [splitChars]
  | cons c a ih =>
    simp only [List.cons_append, splitChars, List.append_eq]
    by_cases hc : c = sep
    · simp only [hc, if_true, ih, List.cons_append]
    · simp only [hc, if_false]
      rw [ih]
      have hpos := splitChars_length_pos sep a
      cases hsa : splitChars sep a with
      | nil => rw [hsa] at hpos; simp at hpos
      | cons p ps => rfl

/-- A list without the separator is its own single part. -/
theorem splitChars_of_not_mem (sep : Char) (b : List Char) (h : sep ∉ b) :
    splitChars sep b = [b] := by
  induction b with
  | nil => rfl
  | cons c b ih =>
    simp only [List.mem_cons, not_or] at h
    simp only [splitChars]
    rw [if_neg (fun hc => h.1 hc.symm), ih h.2]

/-- Appending `/` and a slash-free name to a string appends that name to its
parts. -/
theorem Split_append_slash (q s : String) (hs : '/' ∉ s.data) :
    Split (q ++ "/" ++ s) '/' = Split q '/' ++ [s] := by
  unfold Split
  have hd : (q ++ "/" ++ s).data = q.data ++ '/' :: s.data := by
    simp only [String.data_append]
    simp
  rw [hd, splitChars_append_sep, splitChars_of_not_mem '/' s.data hs, List.map_append]
  rfl

/-- For a root path `/` ++ r, where `r` does not end with a slash, the offset
that `New` computes aligns the path `/` ++ r ++ `/name/version/endpoint`: it
decodes to (name, version, endpoint).  When `r` is not empty this is the path
of the node name/version/endpoint beneath the root; the root `/` itself, whose
node paths are `/name/version/endpoint`, is not of this form. -/
theorem parseConfigPath_under_root (r name version endpoint : String)
    (hlast : r.data.getLast? ≠ some '/')
    (hname : '/' ∉ name.data) (hversion : '/' ∉ version.data)
    (hendpoint : '/' ∉ endpoint.data) (hne : endpoint ≠ "")
    (hfit : (Split r '/').length + 3 < 2 ^ 63) :
    parseConfigPath ("/" ++ r ++ "/" ++ name ++ "/" ++ version ++ "/" ++ endpoint)
        (New ("/" ++ r)).offset =
      some ⟨name, version, endpoint, none⟩ := by
  have hed : endpoint.data ≠ [] := fun h => hne (String.ext h)
  have hroot : sanitizePath ("/" ++ r) = r := by
    apply String.ext
    rw [sanitizePath_data]
    have hd : ("/" ++ r).data = '/' :: r.data := by
      simp only [String.data_append]
      rfl
    rw [hd]
    simp only [List.head?_cons, List.tail_cons, if_true, hlast, if_false]
  have hpath : sanitizePath ("/" ++ r ++ "/" ++ name ++ "/" ++ version ++ "/" ++ endpoint) =
      r ++ "/" ++ name ++ "/" ++ version ++ "/" ++ endpoint := by
    apply String.ext
    rw [sanitizePath_data]
    have hd : ("/" ++ r ++ "/" ++ name ++ "/" ++ version ++ "/" ++ endpoint).data =
        '/' :: (r ++ "/" ++ name ++ "/" ++ version ++ "/" ++ endpoint).data := by
      simp only [String.data_append]
      simp
    rw [hd]
    simp only [List.head?_cons, List.tail_cons, if_true]
    have hl : (r ++ "/" ++ name ++ "/" ++ version ++ "/" ++ endpoint).data.getLast? ≠
        some '/' := by
      rw [String.data_append, List.getLast?_append_of_ne_nil _ hed]
      intro h
      exact hendpoint (List.mem_of_mem_getLast? h)
    rw [if_neg hl]
  have hparts : Split (r ++ "/" ++ name ++ "/" ++ version ++ "/" ++ endpoint) '/' =
      Split r '/' ++ [name, version, endpoint] := by
    rw [Split_append_slash _ endpoint hendpoint, Split_append_slash _ version hversion,
      Split_append_slash _ name hname]
    simp
  have hoffset : (New ("/" ++ r)).offset = (Split r '/').length := by
    unfold New uintOfInt
    simp only [hroot]
    omega
  rw [hoffset, parseConfigPath_no_wrap _ _ hfit, hpath, hparts]
  generalize Split r '/' = parts
  have hlen : (parts ++ [name, version, endpoint]).length = parts.length + 3 := by simp
  have h0 : (parts ++ [name, version, endpoint])[parts.length]? = some name := by
    rw [List.getElem?_append_right (Nat.le_refl _)]
    simp
  have h1 : (parts ++ [name, version, endpoint])[parts.length + 1]? = some version := by
    rw [List.getElem?_append_right (by omega)]
    simp
  have h2 : (parts ++ [name, version, endpoint])[parts.length + 2]? = some endpoint := by
    rw [List.getElem?_append_right (by omega)]
    simp
  rw [hlen, if_neg (by omega), if_neg (by omega), if_neg (by omega), if_neg (by omega), h0, h1,
    h2]
  rfl

/-! ## Duplicate notifications -/

namespace ZKRegistry

/-- A retain pass leaves nothing for a second one to remove. -/
theorem not_mem_retainPass (endpoint : String) (l : List String) :
    endpoint ∉ retainPass endpoint l := by
  simp [retainPass]

/-- Deleting a service twice is deleting it once. -/
theorem DeleteService_twice (reg : ZKRegistry) (name : String) :
    (reg.DeleteService name).DeleteService name = reg.DeleteService name := by
  unfold DeleteService
  simp only []
  rw [erase_of_lookup_none (reg.services.erase name) name (Finmap.lookup_erase name _)]

/-- Deleting a version twice is deleting it once. -/
theorem DeleteVersion_twice (reg : ZKRegistry) (name version : String) :
    (reg.DeleteVersion name version).DeleteVersion name version =
      reg.DeleteVersion name version := by
  cases hs : reg.services.lookup name with
  | none =>
    have h1 : reg.DeleteVersion name version = reg := by
      unfold DeleteVersion
      rw [hs]
    rw [h1, h1]
  | some service =>
    have h1 : reg.DeleteVersion name version =
        { reg with services := reg.services.insert name (service.erase version) } := by
      unfold DeleteVersion
      rw [hs]
    rw [h1]
    unfold DeleteVersion
    simp only [Finmap.lookup_insert, Finmap.insert_insert]
    rw [erase_of_lookup_none (service.erase version) version (Finmap.lookup_erase version _)]

/-- Deleting an endpoint twice is deleting it once. -/
theorem DeleteEndpoint_twice (reg : ZKRegistry) (name version endpoint : String) :
    (reg.DeleteEndpoint name version endpoint).DeleteEndpoint name version endpoint =
      reg.DeleteEndpoint name version endpoint := by
  apply DeleteEndpoint_of_not_mem
  intro l hl
  rw [entry_DeleteEndpoint_self] at hl
  cases he : reg.entry name version with
  | none => rw [he] at hl; exact Option.noConfusion hl
  | some l0 =>
    rw [he] at hl
    simp only [Option.map_some', Option.some.injEq] at hl
    rw [← hl]
    exact not_mem_retainPass endpoint l0

/-- No method changes the offset. -/
theorem offset_preserved (reg : ZKRegistry) (name version endpoint : String) :
    (reg.Add name version endpoint).offset = reg.offset ∧
      (reg.DeleteEndpoint name version endpoint).offset = reg.offset ∧
      (reg.DeleteVersion name version).offset = reg.offset ∧
      (reg.DeleteService name).offset = reg.offset := by
  refine ⟨rfl, ?_, ?_, rfl⟩
  · unfold DeleteEndpoint
    cases reg.services.lookup name <;> rfl
  · unfold DeleteVersion
    cases reg.services.lookup name <;> rfl

/-- C18, counterexample: on the empty registry of root `/p/discovery`, the
Create notification of `/p/discovery/name/version/addr` processed once leaves
the sequence addr, and processed twice leaves addr, addr. -/
theorem watcherEvent_Create_twice_differs :
    (((New "/p/discovery").watcherEvent
        ⟨"/p/discovery/name/version/addr", EventType.Create, none⟩).map
        fun reg => reg.Lookup "name" "version") = some (["addr"], none) ∧
      ((((New "/p/discovery").watcherEvent
        ⟨"/p/discovery/name/version/addr", EventType.Create, none⟩).bind
        fun reg => reg.watcherEvent
          ⟨"/p/discovery/name/version/addr", EventType.Create, none⟩).map
        fun reg => reg.Lookup "name" "version") = some (["addr", "addr"], none) ∧
      ((New "/p/discovery").watcherEvent
        ⟨"/p/discovery/name/version/addr", EventType.Create, none⟩).bind
        (fun reg => reg.watcherEvent
          ⟨"/p/discovery/name/version/addr", EventType.Create, none⟩) ≠
        (New "/p/discovery").watcherEvent
          ⟨"/p/discovery/name/version/addr", EventType.Create, none⟩ := by
  have h1 : (((New "/p/discovery").watcherEvent
        ⟨"/p/discovery/name/version/addr", EventType.Create, none⟩).map
        fun reg => reg.Lookup "name" "version") = some (["addr"], none) := by decide
  have h2 : ((((New "/p/discovery").watcherEvent
        ⟨"/p/discovery/name/version/addr", EventType.Create, none⟩).bind
        fun reg => reg.watcherEvent
          ⟨"/p/discovery/name/version/addr", EventType.Create, none⟩).map
        fun reg => reg.Lookup "name" "version") = some (["addr", "addr"], none) := by decide
  refine ⟨h1, h2, ?_⟩
  intro heq
  rw [heq, h1] at h2
  exact absurd h2 (by decide)

/-- C18, amended: processing the same notification twice in a row leaves the
registry that processing it once leaves, for every Delete and every Update
notification and for every Create notification that adds no endpoint (one that
is dropped or is on a service or version node). -/
theorem watcherEvent_twice (reg : ZKRegistry) (event : Event)
    (h : event.Kind ≠ EventType.Create ∨ reg.watcherEvent event = some reg) :
    (reg.watcherEvent event).bind (fun reg2 => reg2.watcherEvent event) =
      reg.watcherEvent event := by
  have hsame : reg.watcherEvent event = some reg →
      (reg.watcherEvent event).bind (fun reg2 => reg2.watcherEvent event) =
        reg.watcherEvent event := by
    intro hs
    rw [hs, Option.some_bind, hs]
  rcases h with hkind | hs
  swap
  · exact hsame hs
  cases hp : parseConfigPath event.Path reg.offset with
  | none =>
    have hnone : reg.watcherEvent event = none := by
      simp [watcherEvent, ParseConfigPath, hp]
    rw [hnone]
    rfl
  | some r =>
    have hstep : ∀ reg2 : ZKRegistry, reg2.offset = reg.offset →
        reg.watcherEvent event = some reg2 →
        (reg2.watcherEvent event = some reg2) →
        (reg.watcherEvent event).bind (fun reg3 => reg3.watcherEvent event) =
          reg.watcherEvent event := by
      intro reg2 _ h1 h2
      rw [h1, Option.some_bind, h2]
    have hof := watcherEvent_of_parse reg event r hp
    by_cases herr : r.err ≠ none
    · rw [if_pos herr] at hof
      exact hsame hof
    rw [if_neg herr] at hof
    by_cases hwatch : event.Error ≠ none
    · rw [if_pos hwatch] at hof
      exact hsame hof
    rw [if_neg hwatch] at hof
    by_cases hname : r.serviceName = ""
    · rw [if_pos hname] at hof
      exact hsame hof
    rw [if_neg hname] at hof
    have hagain : ∀ reg2 : ZKRegistry, reg2.offset = reg.offset →
        reg2.watcherEvent event =
          match event.Kind with
          | .Create =>
            if r.serviceVersion ≠ "" ∧ r.endpoint ≠ "" then
              some (reg2.Add r.serviceName r.serviceVersion r.endpoint)
            else some reg2
          | .Delete =>
            if r.serviceVersion = "" then some (reg2.DeleteService r.serviceName)
            else if r.endpoint = "" then
              some (reg2.DeleteVersion r.serviceName r.serviceVersion)
            else some (reg2.DeleteEndpoint r.serviceName r.serviceVersion r.endpoint)
          | .Update => some reg2 := by
      intro reg2 hoff2
      have hp2 : parseConfigPath event.Path reg2.offset = some r := by rw [hoff2, hp]
      rw [watcherEvent_of_parse reg2 event r hp2, if_neg herr, if_neg hwatch, if_neg hname]
    cases hk : event.Kind with
    | Create => exact absurd hk hkind
    | Update =>
      rw [hk] at hof
      exact hsame hof
    | Delete =>
      rw [hk] at hof
      simp only [] at hof
      have hoffs := offset_preserved reg r.serviceName r.serviceVersion r.endpoint
      by_cases hv : r.serviceVersion = ""
      · rw [if_pos hv] at hof
        refine hstep _ hoffs.2.2.2 hof ?_
        rw [hagain _ hoffs.2.2.2, hk]
        simp only [hv, if_true, DeleteService_twice]
      rw [if_neg hv] at hof
      by_cases he : r.endpoint = ""
      · rw [if_pos he] at hof
        refine hstep _ hoffs.2.2.1 hof ?_
        rw [hagain _ hoffs.2.2.1, hk]
        simp only [hv, he, if_false, if_true, DeleteVersion_twice]
      rw [if_neg he] at hof
      refine hstep _ hoffs.2.1 hof ?_
      rw [hagain _ hoffs.2.1, hk]
      simp only [hv, he, if_false, DeleteEndpoint_twice]

/-- Witness of C18 as amended: a duplicated Delete of an endpoint node. -/
theorem watcherEvent_twice_witness :
    (⟨"/p/discovery/name/version/addr", EventType.Delete, none⟩ : Event).Kind ≠
        EventType.Create ∧
      (((New "/p/discovery").Add "name" "version" "addr").watcherEvent
          ⟨"/p/discovery/name/version/addr", EventType.Delete, none⟩).bind
        (fun reg2 => reg2.watcherEvent
          ⟨"/p/discovery/name/version/addr", EventType.Delete, none⟩) =
        ((New "/p/discovery").Add "name" "version" "addr").watcherEvent
          ⟨"/p/discovery/name/version/addr", EventType.Delete, none⟩ :=
  ⟨by decide,
    watcherEvent_twice ((New "/p/discovery").Add "name" "version" "addr")
      ⟨"/p/discovery/name/version/addr", EventType.Delete, none⟩ (Or.inl (by decide))⟩

end ZKRegistry

/-! ## The JSON representation -/

/-- The keys of a map with a single entry. -/
theorem sortedKeys_insert_empty {β : Type} (k : String) (b : β) :
    sortedKeys ((∅ : Finmap (fun _ : String => β)).insert k b) = [k] := by
  have hkeys : ((∅ : Finmap (fun _ : String => β)).insert k b).keys = {k} := by
    ext x
    simp [Finmap.mem_keys, Finmap.mem_insert, Finmap.not_mem_empty]
  unfold sortedKeys
  rw [hkeys, Finset.sort_singleton]

namespace ZKRegistry

/-- C20: the cache after a single registration of the endpoint `addr` under
`name`/`version` on an empty cache holds exactly one service `name` with exactly
one version `version` whose sequence is `addr`, and `String()` returns for it
exactly the JSON object keyed by service name, of objects keyed by version, of
arrays of endpoint strings. -/
theorem String_single_endpoint (offset : Nat) :
    ((ZKRegistry.mk offset ∅).Add "name" "version" "addr").services =
        Finmap.singleton "name" (Finmap.singleton "version" ["addr"]) ∧
      ((ZKRegistry.mk offset ∅).Add "name" "version" "addr").String =
        "\x7b\"name\":\x7b\"version\":[\"addr\"]\x7d\x7d" := by
  have hoff : ((ZKRegistry.mk offset ∅).Add "name" "version" "addr").services =
      ((ZKRegistry.mk 0 ∅).Add "name" "version" "addr").services := rfl
  constructor
  · rw [hoff]
    decide
  · have hs : ((ZKRegistry.mk 0 ∅).Add "name" "version" "addr").services =
        (∅ : Services).insert "name" ((∅ : Versions).insert "version" ["addr"]) := by
      decide
    unfold ZKRegistry.String marshalServices marshalVersions
    rw [hoff, hs]
    simp only [sortedKeys_insert_empty, List.map_cons, List.map_nil, Finmap.lookup_insert,
      Option.getD_some]
    decide

end ZKRegistry

/-! ## Frame of the mutations -/

namespace ZKRegistry

/-- The entries of the other pairs are not touched by `Add`. -/
theorem entry_Add_of_ne (reg : ZKRegistry) (name version endpoint n v : String)
    (h : (n, v) ≠ (name, version)) :
    (reg.Add name version endpoint).entry n v = reg.entry n v := by
  unfold Add entry
  by_cases hn : n = name
  · subst hn
    have hv : v ≠ version := fun hv => h (by rw [hv])
    simp only [Finmap.lookup_insert, Option.getD_some, Finmap.lookup_insert_of_ne _ hv]
    cases reg.services.lookup n with
    | none => simp only [Option.getD_none]
    | some service => simp only [Option.getD_some]
  · simp only [Finmap.lookup_insert_of_ne _ hn]

/-- The entries of the other pairs are not touched by `DeleteEndpoint`. -/
theorem entry_DeleteEndpoint_of_ne (reg : ZKRegistry) (name version endpoint n v : String)
    (h : (n, v) ≠ (name, version)) :
    (reg.DeleteEndpoint name version endpoint).entry n v = reg.entry n v := by
  unfold DeleteEndpoint entry
  cases hs : reg.services.lookup name with
  | none => rfl
  | some service =>
    by_cases hn : n = name
    · subst hn
      have hv : v ≠ version := fun hv => h (by rw [hv])
      simp only [Finmap.lookup_insert, Option.getD_some, hs, deleteLoop_eq]
      cases service.lookup version with
      | none => rfl
      | some l => simp only [Finmap.lookup_insert_of_ne _ hv]
    · simp only [Finmap.lookup_insert_of_ne _ hn]

/-- The entries of the other services are not touched by `DeleteService`. -/
theorem entry_DeleteService_of_ne (reg : ZKRegistry) (name n v : String) (h : n ≠ name) :
    (reg.DeleteService name).entry n v = reg.entry n v := by
  unfold DeleteService entry
  simp only [Finmap.lookup_erase_ne h]

/-- C22: every mutation changes only its own target: for every cache state,
`Add(name, version, e)` and `DeleteEndpoint(name, version, e)` leave the result
of `Lookup(n, v)` unchanged for every pair (n, v) different from (name,
version), and `DeleteService(name)` leaves `Lookup(n, v)` unchanged for every
service n different from name and every version v. -/
theorem Lookup_frame (reg : ZKRegistry) (name version endpoint n v : String) :
    ((n, v) ≠ (name, version) →
        (reg.Add name version endpoint).Lookup n v = reg.Lookup n v) ∧
      ((n, v) ≠ (name, version) →
        (reg.DeleteEndpoint name version endpoint).Lookup n v = reg.Lookup n v) ∧
      (n ≠ name → (reg.DeleteService name).Lookup n v = reg.Lookup n v) := by
  refine ⟨?_, ?_, ?_⟩
  · intro h
    unfold Lookup
    rw [entry_Add_of_ne reg name version endpoint n v h]
  · intro h
    unfold Lookup
    rw [entry_DeleteEndpoint_of_ne reg name version endpoint n v h]
  · intro h
    unfold Lookup
    rw [entry_DeleteService_of_ne reg name n v h]

/-- Witness of C22 on a registry with two versions of one service and a second
service: the other version and the other service read the same after each
mutation. -/
theorem Lookup_frame_witness :
    (("name", "other") ≠ ("name", "version") ∧ "svc" ≠ "name") ∧
      (((((ZKRegistry.mk 1 ∅).Add "name" "other" "x").Add "svc" "version" "y").Add
          "name" "version" "addr").Lookup "name" "other" = (["x"], none)) ∧
      (((((ZKRegistry.mk 1 ∅).Add "name" "other" "x").Add "svc" "version" "y").DeleteEndpoint
          "name" "version" "x").Lookup "name" "other" = (["x"], none)) ∧
      (((((ZKRegistry.mk 1 ∅).Add "name" "other" "x").Add "svc" "version" "y").DeleteService
          "name").Lookup "svc" "version" = (["y"], none)) := by
  have hbase : (((ZKRegistry.mk 1 ∅).Add "name" "other" "x").Add "svc" "version" "y").Lookup
      "name" "other" = (["x"], none) := by decide
  have hsvc : (((ZKRegistry.mk 1 ∅).Add "name" "other" "x").Add "svc" "version" "y").Lookup
      "svc" "version" = (["y"], none) := by decide
  refine ⟨⟨by decide, by decide⟩, ?_, ?_, ?_⟩
  · rw [(Lookup_frame (((ZKRegistry.mk 1 ∅).Add "name" "other" "x").Add "svc" "version" "y")
      "name" "version" "addr" "name" "other").1 (by decide), hbase]
  · rw [(Lookup_frame (((ZKRegistry.mk 1 ∅).Add "name" "other" "x").Add "svc" "version" "y")
      "name" "version" "x" "name" "other").2.1 (by decide), hbase]
  · rw [(Lookup_frame (((ZKRegistry.mk 1 ∅).Add "name" "other" "x").Add "svc" "version" "y")
      "name" "version" "x" "svc" "version").2.2 (by decide), hsvc]

end ZKRegistry

/-! ## Names stored by the watcher loop -/

/-- No part of a split contains the separator. -/
theorem not_mem_of_mem_splitChars (sep : Char) (cs p : List Char)
    (h : p ∈ splitChars sep cs) : sep ∉ p := by
  induction cs generalizing p with
  | nil =>
    simp only [splitChars, List.mem_singleton] at h
    subst h
    simp
  | cons c cs ih =>
    simp only [splitChars] at h
    by_cases hc : c = sep
    · simp only [hc, if_true, List.mem_cons] at h
      rcases h with h | h
      · subst h; simp
      · exact ih p h
    · simp only [hc, if_false] at h
      have hpos := splitChars_length_pos sep cs
      cases hs : splitChars sep cs with
      | nil => rw [hs] at hpos; simp at hpos
      | cons q qs =>
        rw [hs] at h
        simp only [List.mem_cons] at h
        rcases h with h | h
        · subst h
          have hq := ih q (by rw [hs]; simp)
          simp only [List.mem_cons, not_or]
          exact ⟨fun he => hc he.symm, hq⟩
        · exact ih p (by rw [hs]; simp [h])

/-- No part returned by `strings.Split` on `/` contains a slash. -/
theorem not_mem_of_mem_Split (q s : String) (h : s ∈ Split q '/') : '/' ∉ s.data := by
  unfold Split at h
  simp only [List.mem_map] at h
  obtain ⟨p, hp, rfl⟩ := h
  exact not_mem_of_mem_splitChars '/' q.data p hp

/-- An index expression that does not panic yields an element of the slice. -/
theorem mem_of_index (parts : List String) (i : Int) (s : String)
    (h : index parts i = some s) : s ∈ parts := by
  unfold index at h
  split at h
  · exact List.getElem?_mem h
  · exact Option.noConfusion h

/-- Each string returned by `parseConfigPath` is empty or a part of the
sanitized path, whatever the offset. -/
theorem parseConfigPath_components (zkPath : String) (offset : Nat) (r : ParseResult)
    (h : parseConfigPath zkPath offset = some r) :
    (r.serviceName = "" ∨ r.serviceName ∈ Split (sanitizePath zkPath) '/') ∧
      (r.serviceVersion = "" ∨ r.serviceVersion ∈ Split (sanitizePath zkPath) '/') ∧
      (r.endpoint = "" ∨ r.endpoint ∈ Split (sanitizePath zkPath) '/') := by
  unfold parseConfigPath at h
  simp only [] at h
  generalize Split (sanitizePath zkPath) '/' = parts at h ⊢
  split at h
  · simp only [Option.some.injEq] at h
    subst h
    exact ⟨Or.inl rfl, Or.inl rfl, Or.inl rfl⟩
  split at h
  · simp only [Option.some.injEq] at h
    subst h
    exact ⟨Or.inl rfl, Or.inl rfl, Or.inl rfl⟩
  split at h
  · cases h0 : index parts (intOfUint offset) with
    | none => rw [h0] at h; exact Option.noConfusion h
    | some p0 =>
      rw [h0] at h
      simp only [Option.some_bind, Option.some.injEq] at h
      subst h
      exact ⟨Or.inr (mem_of_index _ _ _ h0), Or.inl rfl, Or.inl rfl⟩
  split at h
  · cases h0 : index parts (intOfUint offset) with
    | none => rw [h0] at h; exact Option.noConfusion h
    | some p0 =>
      cases h1 : index parts (addInt (intOfUint offset) 1) with
      | none => rw [h0, h1] at h; exact Option.noConfusion h
      | some p1 =>
        rw [h0, h1] at h
        simp only [Option.some_bind, Option.some.injEq] at h
        subst h
        exact ⟨Or.inr (mem_of_index _ _ _ h0), Or.inr (mem_of_index _ _ _ h1), Or.inl rfl⟩
  · cases h0 : index parts (intOfUint offset) with
    | none => rw [h0] at h; exact Option.noConfusion h
    | some p0 =>
      cases h1 : index parts (addInt (intOfUint offset) 1) with
      | none => rw [h0, h1] at h; exact Option.noConfusion h
      | some p1 =>
        cases h2 : index parts (addInt (intOfUint offset) 2) with
        | none => rw [h0, h1, h2] at h; exact Option.noConfusion h
        | some p2 =>
          rw [h0, h1, h2] at h
          simp only [Option.some_bind, Option.some.injEq] at h
          subst h
          exact ⟨Or.inr (mem_of_index _ _ _ h0), Or.inr (mem_of_index _ _ _ h1),
            Or.inr (mem_of_index _ _ _ h2)⟩

namespace ZKRegistry

/-- The empty cache has no name to check. -/
theorem namesValid_empty (offset : Nat) : (ZKRegistry.mk offset ∅).namesValid := by
  constructor
  · intro name hmem
    exact absurd hmem Finmap.not_mem_empty
  · intro name version l h
    simp [entry, Finmap.lookup_empty] at h

/-- `Add` of node names keeps every stored name a node name. -/
theorem namesValid_Add (reg : ZKRegistry) (name version endpoint : String)
    (h : reg.namesValid) (hn : isNodeName name) (hv : isNodeName version)
    (he : isNodeName endpoint) : (reg.Add name version endpoint).namesValid := by
  constructor
  · intro n hmem
    have hmem2 : n = name ∨ n ∈ reg.services := by
      unfold Add at hmem
      exact Finmap.mem_insert.mp hmem
    rcases hmem2 with rfl | hmem2
    · exact hn
    · exact h.1 n hmem2
  · intro n v l hl
    by_cases hnv : (n, v) = (name, version)
    · simp only [Prod.mk.injEq] at hnv
      obtain ⟨rfl, rfl⟩ := hnv
      rw [entry_Add_self, Option.some.injEq] at hl
      subst hl
      refine ⟨hv, ?_⟩
      intro e hmem
      simp only [List.mem_append, List.mem_singleton] at hmem
      rcases hmem with hmem | rfl
      · cases hold : reg.entry n v with
        | none => rw [hold] at hmem; simp at hmem
        | some l0 =>
          rw [hold] at hmem
          exact (h.2 n v l0 hold).2 e hmem
      · exact he
    · rw [entry_Add_of_ne reg name version endpoint n v hnv] at hl
      exact h.2 n v l hl

/-- `DeleteEndpoint` stores no new name. -/
theorem namesValid_DeleteEndpoint (reg : ZKRegistry) (name version endpoint : String)
    (h : reg.namesValid) : (reg.DeleteEndpoint name version endpoint).namesValid := by
  constructor
  · intro n hmem
    apply h.1
    unfold DeleteEndpoint at hmem
    cases hs : reg.services.lookup name with
    | none => rw [hs] at hmem; exact hmem
    | some service =>
      rw [hs] at hmem
      rcases Finmap.mem_insert.mp hmem with rfl | hmem2
      · exact Finmap.mem_of_lookup_eq_some hs
      · exact hmem2
  · intro n v l hl
    by_cases hnv : (n, v) = (name, version)
    · simp only [Prod.mk.injEq] at hnv
      obtain ⟨rfl, rfl⟩ := hnv
      rw [entry_DeleteEndpoint_self] at hl
      cases hold : reg.entry n v with
      | none => rw [hold] at hl; exact Option.noConfusion hl
      | some l0 =>
        rw [hold] at hl
        simp only [Option.map_some', Option.some.injEq] at hl
        subst hl
        refine ⟨(h.2 n v l0 hold).1, ?_⟩
        intro e hmem
        exact (h.2 n v l0 hold).2 e (List.mem_of_mem_filter hmem)
    · rw [entry_DeleteEndpoint_of_ne reg name version endpoint n v hnv] at hl
      exact h.2 n v l hl

/-- `DeleteVersion` stores no new name. -/
theorem namesValid_DeleteVersion (reg : ZKRegistry) (name version : String)
    (h : reg.namesValid) : (reg.DeleteVersion name version).namesValid := by
  unfold DeleteVersion
  cases hs : reg.services.lookup name with
  | none => exact h
  | some service =>
    constructor
    · intro n hmem
      apply h.1
      rcases Finmap.mem_insert.mp hmem with rfl | hmem2
      · exact Finmap.mem_of_lookup_eq_some hs
      · exact hmem2
    · intro n v l hl
      apply h.2 n v l
      unfold entry at hl ⊢
      by_cases hn : n = name
      · subst hn
        simp only [Finmap.lookup_insert, Option.getD_some] at hl
        rw [hs, Option.getD_some]
        by_cases hv : v = version
        · subst hv
          rw [Finmap.lookup_erase] at hl
          exact Option.noConfusion hl
        · rw [Finmap.lookup_erase_ne hv] at hl
          exact hl
      · simp only [Finmap.lookup_insert_of_ne _ hn] at hl
        exact hl

/-- `DeleteService` stores no new name. -/
theorem namesValid_DeleteService (reg : ZKRegistry) (name : String)
    (h : reg.namesValid) : (reg.DeleteService name).namesValid := by
  constructor
  · intro n hmem
    unfold DeleteService at hmem
    exact h.1 n (Finmap.mem_erase.mp hmem).2
  · intro n v l hl
    by_cases hn : n = name
    · subst hn
      simp [entry, DeleteService, Finmap.lookup_erase, Finmap.lookup_empty] at hl
    · rw [entry_DeleteService_of_ne reg name n v hn] at hl
      exact h.2 n v l hl

/-- Processing one notification keeps every stored name a node name. -/
theorem namesValid_watcherEvent (reg reg2 : ZKRegistry) (event : Event)
    (h : reg.namesValid) (hev : reg.watcherEvent event = some reg2) : reg2.namesValid := by
  cases hp : parseConfigPath event.Path reg.offset with
  | none =>
    simp [watcherEvent, ParseConfigPath, hp] at hev
  | some r =>
    obtain ⟨c0, c1, c2⟩ := parseConfigPath_components event.Path reg.offset r hp
    have hnode : ∀ s : String, (s = "" ∨ s ∈ Split (sanitizePath event.Path) '/') → s ≠ "" →
        isNodeName s := by
      intro s hs hne
      rcases hs with hs | hs
      · exact absurd hs hne
      · exact ⟨hne, not_mem_of_mem_Split _ s hs⟩
    rw [watcherEvent_of_parse reg event r hp] at hev
    split at hev
    · rw [← Option.some.inj hev]; exact h
    split at hev
    · rw [← Option.some.inj hev]; exact h
    split at hev
    · rw [← Option.some.inj hev]; exact h
    rename_i hname
    split at hev
    · split at hev
      · rename_i hve
        rw [← Option.some.inj hev]
        exact namesValid_Add reg _ _ _ h (hnode _ c0 hname) (hnode _ c1 hve.1)
          (hnode _ c2 hve.2)
      · rw [← Option.some.inj hev]; exact h
    · split at hev
      · rw [← Option.some.inj hev]
        exact namesValid_DeleteService reg _ h
      split at hev
      · rw [← Option.some.inj hev]
        exact namesValid_DeleteVersion reg _ _ h
      · rw [← Option.some.inj hev]
        exact namesValid_DeleteEndpoint reg _ _ _ h
    · rw [← Option.some.inj hev]; exact h

/-- The loop keeps every stored name a node name, whatever the inputs. -/
theorem namesValid_watcher (inputs : List Select) (reg reg2 : ZKRegistry)
    (h : reg.namesValid) (hrun : reg.watcher inputs = some reg2) : reg2.namesValid := by
  induction inputs generalizing reg with
  | nil =>
    simp only [watcher, Option.some.injEq] at hrun
    rw [← hrun]; exact h
  | cons s rest ih =>
    cases s with
    | stop =>
      simp only [watcher, watcherIter, Option.some.injEq] at hrun
      rw [← hrun]; exact h
    | tick =>
      simp only [watcher, watcherIter] at hrun
      exact ih reg h hrun
    | event ev =>
      cases hev : reg.watcherEvent ev with
      | none =>
        have hiter : reg.watcherIter (Select.event ev) = none := by
          simp only [watcherIter, hev, Option.map_none']
        rw [watcher, hiter] at hrun
        exact Option.noConfusion hrun
      | some reg1 =>
        rw [watcher, watcherIter_event reg reg1 ev hev] at hrun
        exact ih reg1 (namesValid_watcherEvent reg reg1 ev h hev) hrun

/-- C23: in every cache state reached from the empty cache by the watcher loop
on any finite sequence of watch notifications (and ticks), with any fixed
offset, every service-name key, every version key and every stored endpoint
string is non-empty and contains no `/` character. -/
theorem watcher_stores_node_names (offset : Nat) (inputs : List Select) (reg : ZKRegistry)
    (hrun : (ZKRegistry.mk offset ∅).watcher inputs = some reg) :
    (∀ name, name ∈ reg.services → name ≠ "" ∧ '/' ∉ name.data) ∧
      ∀ name service, reg.services.lookup name = some service →
        ∀ version l, service.lookup version = some l →
          (version ≠ "" ∧ '/' ∉ version.data) ∧ ∀ e, e ∈ l → e ≠ "" ∧ '/' ∉ e.data := by
  have hvalid := namesValid_watcher inputs (ZKRegistry.mk offset ∅) reg (namesValid_empty offset)
    hrun
  refine ⟨hvalid.1, ?_⟩
  intro name service hs version l hl
  exact hvalid.2 name version l (by simp only [entry, hs, Option.getD_some, hl])

/-- Witness of C23: the loop of the registry of root `/p/discovery` processes
the creation of a service node, of a version node and of an endpoint node, a
tick, and the deletion of another endpoint; the cache then holds the service
`name` with the version `version` and the endpoint `addr`. -/
theorem watcher_stores_node_names_witness :
    (ZKRegistry.mk 2 ∅).watcher
        [Select.event ⟨"/p/discovery/name", EventType.Create, none⟩,
          Select.event ⟨"/p/discovery/name/version", EventType.Create, none⟩,
          Select.event ⟨"/p/discovery/name/version/addr", EventType.Create, none⟩,
          Select.tick,
          Select.event ⟨"/p/discovery/name/other", EventType.Delete, none⟩] =
        some ((ZKRegistry.mk 2 ∅).Add "name" "version" "addr") ∧
      ("name" ∈ ((ZKRegistry.mk 2 ∅).Add "name" "version" "addr").services ∧
        ("name" ≠ "" ∧ '/' ∉ "name".data)) ∧
      ((ZKRegistry.mk 2 ∅).Add "name" "version" "addr").Lookup "name" "version" =
        (["addr"], none) := by
  have hrun : (ZKRegistry.mk 2 ∅).watcher
      [Select.event ⟨"/p/discovery/name", EventType.Create, none⟩,
        Select.event ⟨"/p/discovery/name/version", EventType.Create, none⟩,
        Select.event ⟨"/p/discovery/name/version/addr", EventType.Create, none⟩,
        Select.tick,
        Select.event ⟨"/p/discovery/name/other", EventType.Delete, none⟩] =
      some ((ZKRegistry.mk 2 ∅).Add "name" "version" "addr") := by
    have e1 := watcherEvent_of_parse (ZKRegistry.mk 2 ∅)
      ⟨"/p/discovery/name", EventType.Create, none⟩ ⟨"name", "", "", none⟩ (by decide)
    have e2 := watcherEvent_of_parse (ZKRegistry.mk 2 ∅)
      ⟨"/p/discovery/name/version", EventType.Create, none⟩ ⟨"name", "version", "", none⟩
      (by decide)
    have e3 := watcherEvent_of_parse (ZKRegistry.mk 2 ∅)
      ⟨"/p/discovery/name/version/addr", EventType.Create, none⟩
      ⟨"name", "version", "addr", none⟩ (by decide)
    have e4 := watcherEvent_of_parse ((ZKRegistry.mk 2 ∅).Add "name" "version" "addr")
      ⟨"/p/discovery/name/other", EventType.Delete, none⟩ ⟨"name", "other", "", none⟩
      (by decide)
    have hdel : ((ZKRegistry.mk 2 ∅).Add "name" "version" "addr").DeleteVersion "name" "other" =
        (ZKRegistry.mk 2 ∅).Add "name" "version" "addr" := by
      have hs : ((ZKRegistry.mk 2 ∅).Add "name" "version" "addr").services.lookup "name" =
          some ((∅ : Versions).insert "version" ["addr"]) := by decide
      unfold DeleteVersion
      simp only [hs]
      rw [erase_of_lookup_none _ "other" (by decide), insert_lookup_self _ "name" _ hs]
    simp only [watcher, watcherIter, e1, e2, e3, e4, hdel, Option.map_some']
    rfl
  exact ⟨hrun,
    ⟨by decide, (watcher_stores_node_names 2 _ _ hrun).1 "name" (by decide)⟩,
    by decide⟩

end ZKRegistry

/-! ## A returned slice and a later `DeleteEndpoint` -/

/-- On the memory, the loop of `DeleteEndpoint` ends within `len + 1` passes
and the stored slice, still over the same backing array, then reads as the
retain pass over what it read before: the same result as `deleteLoop` on
sequences. -/
theorem deleteLoopShared_elems (fuel : Nat) (heap : List (List String))
    (service : Finmap (fun _ : String => Slice)) (version endpoint : String) (s : Slice)
    (hs : service.lookup version = some s) (hfuel : s.len < fuel)
    (hptr : s.ptr < heap.length) (hcap : s.len ≤ (heap.getD s.ptr []).length) :
    ∃ heap2 service2 s2,
      deleteLoopShared fuel heap service version endpoint = some (heap2, service2) ∧
        service2.lookup version = some s2 ∧ s2.ptr = s.ptr ∧
        s2.elems heap2 = retainPass endpoint (s.elems heap) := by
  induction fuel generalizing heap service s with
  | zero => omega
  | succ fuel ih =>
    have hlen : (s.elems heap).length = s.len := by
      unfold Slice.elems
      rw [List.length_take]
      omega
    rw [deleteLoopShared]
    simp only [hs]
    cases hfind : rangeFind endpoint (s.elems heap) 0 with
    | none =>
      refine ⟨heap, service, s, rfl, hs, rfl, ?_⟩
      rw [retainPass_of_not_mem endpoint _ (rangeFind_eq_none endpoint _ 0 hfind)]
    | some i =>
      obtain ⟨k, hk, hget⟩ := rangeFind_eq_some endpoint _ 0 i hfind
      have hik : i = k := by omega
      subst hik
      have hlt : i < (s.elems heap).length := by
        by_contra hge
        rw [List.getElem?_eq_none (by omega)] at hget
        exact Option.noConfusion hget
      have hseen : ((copyDown (s.elems heap) i).set ((copyDown (s.elems heap) i).length - 1)
          "").length = s.len := by
        simp only [List.length_set, copyDown, List.length_append, List.length_take,
          List.length_drop]
        omega
      have hgetD : ∀ x : List String, (heap.set s.ptr x).getD s.ptr [] = x := by
        intro x
        rw [List.getD_eq_getElem?_getD, List.getElem?_set_self hptr]
        rfl
      have hread : (Slice.mk s.ptr (s.len - 1)).elems
          (heap.set s.ptr
            ((copyDown (s.elems heap) i).set ((copyDown (s.elems heap) i).length - 1) "" ++
              (heap.getD s.ptr []).drop s.len)) = (s.elems heap).eraseIdx i := by
        rw [← removeAt_eq_eraseIdx _ i hlt]
        show ((heap.set s.ptr _).getD s.ptr []).take (s.len - 1) = _
        rw [hgetD, List.take_append_of_le_length (by rw [hseen]; omega)]
        simp only [removeAt]
        rw [hseen]
      obtain ⟨heap2, service2, s2, hrun, hs2, hp2, he2⟩ :=
        ih (heap.set s.ptr
            ((copyDown (s.elems heap) i).set ((copyDown (s.elems heap) i).length - 1) "" ++
              (heap.getD s.ptr []).drop s.len))
          (service.insert version ⟨s.ptr, s.len - 1⟩) ⟨s.ptr, s.len - 1⟩
          (Finmap.lookup_insert _) (by simp only []; omega)
          (by simp only [List.length_set]; exact hptr)
          (by
            show s.len - 1 ≤ ((heap.set s.ptr _).getD s.ptr []).length
            rw [hgetD, List.length_append, hseen]
            omega)
      refine ⟨heap2, service2, s2, hrun, hs2, hp2, ?_⟩
      rw [he2, hread, retainPass_eraseIdx endpoint _ i hget]

namespace SharedRegistry

/-- C21, evaluated on the memory after `Add(name, version, a)` and
`Add(name, version, b)`: `Lookup` returns the stored slice, which reads a, b;
the loop then applies `DeleteEndpoint(name, version, a)`, after which the
stored slice reads b; the slice returned before, which the caller still holds,
now reads b followed by the empty string, a sequence that was stored after no
prefix of the mutations. -/
theorem returned_slice_reads_partial_update :
    (SharedRegistry.mk [["a", "b"]]
        ((∅ : Finmap _).insert "name" ((∅ : Finmap _).insert "version" ⟨0, 2⟩))).Lookup
        "name" "version" = (some ⟨0, 2⟩, none) ∧
      (Slice.mk 0 2).elems [["a", "b"]] = ["a", "b"] ∧
      ((DeleteEndpoint 3
        (SharedRegistry.mk [["a", "b"]]
          ((∅ : Finmap _).insert "name" ((∅ : Finmap _).insert "version" ⟨0, 2⟩)))
        "name" "version" "a").map fun reg =>
          (reg.heap, reg.Lookup "name" "version", (Slice.mk 0 1).elems reg.heap,
            (Slice.mk 0 2).elems reg.heap)) =
        some ([["b", ""]], (some ⟨0, 1⟩, none), ["b"], ["b", ""]) ∧
      ["b", ""] ∉ [["a", "b"], ["b"]] := by
  decide

end SharedRegistry

end zkregistry
